import Mathlib

/-!
Verification of the RSS affiliate-link pipeline

A shallow embedding, in Lean 4, of the URL resolution / cleaning /
affiliate-injection pipeline of `rss-to-json-frontend`
(`scripts/link_resolver.py`, `scripts/affiliate_processor.py`,
`scripts/affiliate_config.py`, `scripts/rss_to_json.py`), together with
proofs and refutations of the specified properties.

The Python code manipulates URLs through the CPython `urllib.parse`
functions `urlparse`, `urlunparse`, `parse_qs`, `urlencode` (with
`quote_plus` / `unquote`).  Those library functions are embedded here over
`List Char`, following the CPython sources (3.11-era `urllib/parse.py`).
Modelling conventions, stated once:

* Python `str` is modelled as Lean `String` / `List Char`, one `Char` per
  code point.
* The percent-codec is modelled at the code-point level: an unsafe ASCII
  character encodes to `%XX` and `%XX` decodes to the code point `XX`.
  This coincides with CPython (UTF-8 byte codec) on ASCII strings, which
  is the character repertoire of URLs; non-ASCII characters pass through
  the encoder unchanged so that the model's decoder remains its inverse.
* `str.lower()` is modelled as ASCII lowercasing.
* The network is modelled by an oracle `net : String → Option String`
  giving, for each URL, the final URL of a successful HEAD
  redirect-resolution, or `none` when the request raises
  (timeout / network error).  The Python `try/except` blocks around pure
  string code are dead (the embedded functions are total), matching the
  fact that `urlparse`/`urlencode` do not raise on `str` input.
-/

namespace RssPipeline

/-! ## Character classes (CPython `urllib.parse` / `string` module) -/

def isAsciiAlpha (c : Char) : Bool :=
  (65 ≤ c.toNat && c.toNat ≤ 90) || (97 ≤ c.toNat && c.toNat ≤ 122)

def isAsciiDigit (c : Char) : Bool :=
  48 ≤ c.toNat && c.toNat ≤ 57

/-- `scheme_chars` of `urllib.parse`: letters, digits and `+-.`. -/
def isSchemeChar (c : Char) : Bool :=
  isAsciiAlpha c || isAsciiDigit c ||
    c.toNat = 43 || c.toNat = 45 || c.toNat = 46

/-- The characters never quoted by `urllib.parse.quote`
(`_ALWAYS_SAFE`): ASCII letters, digits and `_.-~`. -/
def isAlwaysSafe (c : Char) : Bool :=
  isAsciiAlpha c || isAsciiDigit c ||
    c.toNat = 95 || c.toNat = 46 || c.toNat = 45 || c.toNat = 126

def isHexDigit (c : Char) : Bool :=
  isAsciiDigit c || (97 ≤ c.toNat && c.toNat ≤ 102) ||
    (65 ≤ c.toNat && c.toNat ≤ 70)

def hexVal (c : Char) : Nat :=
  if isAsciiDigit c then c.toNat - 48
  else if 97 ≤ c.toNat && c.toNat ≤ 102 then c.toNat - 97 + 10
  else c.toNat - 65 + 10

/-- Upper-case hex digit of a value `< 16` (CPython quoting emits
upper-case hex). -/
def hexDigitChar (n : Nat) : Char :=
  if n < 10 then Char.ofNat (48 + n)
  else Char.ofNat (65 + (n - 10))

/-- ASCII lowercasing, the fragment of `str.lower()` exercised by URLs. -/
def asciiLower (c : Char) : Char :=
  if 65 ≤ c.toNat && c.toNat ≤ 90 then Char.ofNat (c.toNat + 32) else c

def lowerL (l : List Char) : List Char := l.map asciiLower

def lowerS (s : String) : String := ⟨lowerL s.data⟩

theorem toNat_ofNat_valid {n : Nat} (h : n < 0xD800) :
    (Char.ofNat n).toNat = n := by
  unfold Char.ofNat
  rw [dif_pos (Or.inl h)]
  rfl

theorem char_eq_of_toNat {c d : Char} (h : c.toNat = d.toNat) : c = d :=
  Char.ext (UInt32.ext h)

theorem toNat_asciiLower (c : Char) :
    (asciiLower c).toNat =
      if 65 ≤ c.toNat ∧ c.toNat ≤ 90 then c.toNat + 32 else c.toNat := by
  unfold asciiLower
  by_cases h : 65 ≤ c.toNat ∧ c.toNat ≤ 90
  · rw [if_pos (by simp [h.1, h.2]), if_pos h]
    exact toNat_ofNat_valid (by omega)
  · rw [if_neg (by simpa using h), if_neg h]

theorem asciiLower_idem (c : Char) :
    asciiLower (asciiLower c) = asciiLower c := by
  apply char_eq_of_toNat
  rw [toNat_asciiLower (asciiLower c), toNat_asciiLower c]
  by_cases h : 65 ≤ c.toNat ∧ c.toNat ≤ 90
  · rw [if_pos h, if_neg (by omega)]
  · rw [if_neg h, if_neg h]

theorem lowerL_idem (l : List Char) : lowerL (lowerL l) = lowerL l := by
  unfold lowerL
  rw [List.map_map]
  exact List.map_congr_left (fun c _ => asciiLower_idem c)

theorem isAsciiAlpha_asciiLower {c : Char} (h : isAsciiAlpha c = true) :
    isAsciiAlpha (asciiLower c) = true := by
  unfold isAsciiAlpha at *
  simp only [Bool.or_eq_true, Bool.and_eq_true, decide_eq_true_eq] at h ⊢
  rw [toNat_asciiLower]
  by_cases hb : 65 ≤ c.toNat ∧ c.toNat ≤ 90
  · rw [if_pos hb]; omega
  · rw [if_neg hb]; omega

theorem isSchemeChar_asciiLower {c : Char} (h : isSchemeChar c = true) :
    isSchemeChar (asciiLower c) = true := by
  unfold isSchemeChar isAsciiAlpha isAsciiDigit at *
  simp only [Bool.or_eq_true, Bool.and_eq_true, decide_eq_true_eq] at h ⊢
  rw [toNat_asciiLower]
  by_cases hb : 65 ≤ c.toNat ∧ c.toNat ≤ 90
  · rw [if_pos hb]; omega
  · rw [if_neg hb]; omega

/-! ## Percent codec (`quote_plus` / `unquote` composed with the
`+`-for-space replacement done by `parse_qsl`) -/

/-- One character of `quote_plus(s, safe='')`: space becomes `+`, always-safe
characters pass, other ASCII characters percent-encode; non-ASCII
characters pass through (see the modelling conventions above). -/
def quotePlusChar (c : Char) : List Char :=
  if c = ' ' then ['+']
  else if isAlwaysSafe c || 0x80 ≤ c.toNat then [c]
  else ['%', hexDigitChar (c.toNat / 16), hexDigitChar (c.toNat % 16)]

def quotePlusL (l : List Char) : List Char :=
  (l.map quotePlusChar).flatten

/-- `unquote(name.replace('+', ' '))` as performed by `parse_qsl`:
`+` becomes space, `%XX` (two hex digits) decodes, malformed escapes are
kept verbatim.  (The `+`-replacement pass and the percent-decode pass
commute into one scan: neither `+` nor space is a hex digit, and `%` is
untouched by the replacement.) -/
def unquotePlusL : List Char → List Char
  | [] => []
  | c :: t =>
    if c = '+' then ' ' :: unquotePlusL t
    else if c = '%' then
      match t with
      | h1 :: h2 :: t' =>
        if isHexDigit h1 && isHexDigit h2 then
          Char.ofNat (16 * hexVal h1 + hexVal h2) :: unquotePlusL t'
        else '%' :: unquotePlusL (h1 :: h2 :: t')
      | [h1] => '%' :: unquotePlusL [h1]
      | [] => ['%']
    else c :: unquotePlusL t

/-! ### Round trip of the codec -/

theorem hexVal_hexDigitChar (n : Nat) (h : n < 16) :
    hexVal (hexDigitChar n) = n := by
  interval_cases n <;> decide

theorem isHexDigit_hexDigitChar (n : Nat) (h : n < 16) :
    isHexDigit (hexDigitChar n) = true := by
  interval_cases n <;> decide

theorem unquotePlus_cons_plus (t : List Char) :
    unquotePlusL ('+' :: t) = ' ' :: unquotePlusL t := by
  rw [unquotePlusL.eq_def]
  simp

theorem unquotePlus_cons_other {c : Char} (t : List Char)
    (h1 : c ≠ '+') (h2 : c ≠ '%') :
    unquotePlusL (c :: t) = c :: unquotePlusL t := by
  rw [unquotePlusL.eq_def]
  simp [h1, h2]

theorem unquotePlus_pct_hex {h1 h2 : Char} (t : List Char)
    (hh1 : isHexDigit h1 = true) (hh2 : isHexDigit h2 = true) :
    unquotePlusL ('%' :: h1 :: h2 :: t) =
      Char.ofNat (16 * hexVal h1 + hexVal h2) :: unquotePlusL t := by
  rw [unquotePlusL.eq_def]
  simp [hh1, hh2]

theorem unquotePlus_quotePlusChar (c : Char) (l : List Char) :
    unquotePlusL (quotePlusChar c ++ l) = c :: unquotePlusL l := by
  by_cases hsp : c = ' '
  · subst hsp
    simp only [quotePlusChar, if_pos rfl, List.cons_append, List.nil_append]
    exact unquotePlus_cons_plus l
  · by_cases hsafe : (isAlwaysSafe c || 0x80 ≤ c.toNat : Bool)
    · have hplus : c ≠ '+' := by
        rintro rfl; revert hsafe; decide
      have hpct : c ≠ '%' := by
        rintro rfl; revert hsafe; decide
      simp only [quotePlusChar, if_neg hsp, if_pos hsafe,
        List.cons_append, List.nil_append]
      exact unquotePlus_cons_other l hplus hpct
    · -- the percent-encoded branch
      have hlt : c.toNat < 0x80 := by
        rcases Nat.lt_or_ge c.toNat 0x80 with h | h
        · exact h
        · exact absurd (by simp [h]) hsafe
      have hdiv : c.toNat / 16 < 16 := by omega
      have hmod : c.toNat % 16 < 16 := Nat.mod_lt _ (by omega)
      simp only [quotePlusChar, if_neg hsp, if_neg hsafe,
        List.cons_append, List.nil_append]
      rw [unquotePlus_pct_hex l (isHexDigit_hexDigitChar _ hdiv)
        (isHexDigit_hexDigitChar _ hmod),
        hexVal_hexDigitChar _ hdiv, hexVal_hexDigitChar _ hmod]
      congr 1
      have h16 : 16 * (c.toNat / 16) + c.toNat % 16 = c.toNat := by omega
      rw [h16]
      exact Char.ofNat_toNat c

theorem unquotePlus_quotePlus (l : List Char) :
    unquotePlusL (quotePlusL l) = l := by
  induction l with
  | nil => rfl
  | cons c t ih =>
    show unquotePlusL (quotePlusChar c ++ quotePlusL t) = c :: t
    rw [unquotePlus_quotePlusChar, ih]

/-- `quote_plus` of a nonempty string is nonempty. -/
theorem quotePlus_ne_nil {l : List Char} (h : l ≠ []) :
    quotePlusL l ≠ [] := by
  cases l with
  | nil => exact absurd rfl h
  | cons c t =>
    show quotePlusChar c ++ quotePlusL t ≠ []
    have : quotePlusChar c ≠ [] := by
      unfold quotePlusChar
      split
      · simp
      · split <;> simp
    simp [this]

/-- Membership in the characters emitted by `quotePlusL`: every emitted
character is `+`, `%`, a hex digit, an always-safe character, or a
non-ASCII character.  In particular `&`, `=`, `#`, `?` and `\t\r\n`
never occur. -/
theorem mem_quotePlusChar {c d : Char} (h : d ∈ quotePlusChar c) :
    d = '+' ∨ d = '%' ∨ isHexDigit d = true ∨ isAlwaysSafe d = true ∨
      0x80 ≤ d.toNat := by
  unfold quotePlusChar at h
  split at h
  · simp at h; subst h; left; rfl
  · split at h
    · next hsafe =>
      simp at h
      subst h
      rcases Bool.or_eq_true_iff.mp hsafe with h | h
      · right; right; right; left; exact h
      · right; right; right; right; exact of_decide_eq_true h
    · next hsafe =>
      have hlt : c.toNat < 0x80 := by
        rcases Nat.lt_or_ge c.toNat 0x80 with h' | h'
        · exact h'
        · exact absurd (by simp [h']) hsafe
      simp at h
      rcases h with h | h | h
      · subst h; right; left; rfl
      · subst h
        right; right; left
        exact isHexDigit_hexDigitChar _ (by omega)
      · subst h
        right; right; left
        exact isHexDigit_hexDigitChar _ (Nat.mod_lt _ (by omega))

theorem mem_quotePlusL {l : List Char} {d : Char} (h : d ∈ quotePlusL l) :
    d = '+' ∨ d = '%' ∨ isHexDigit d = true ∨ isAlwaysSafe d = true ∨
      0x80 ≤ d.toNat := by
  unfold quotePlusL at h
  rcases List.mem_flatten.mp h with ⟨x, hx, hdx⟩
  rcases List.mem_map.mp hx with ⟨c, _, rfl⟩
  exact mem_quotePlusChar hdx

theorem amp_not_mem_quotePlus (l : List Char) : '&' ∉ quotePlusL l := by
  intro h
  rcases mem_quotePlusL h with h | h | h | h | h <;> revert h <;> decide

theorem eq_not_mem_quotePlus (l : List Char) : '=' ∉ quotePlusL l := by
  intro h
  rcases mem_quotePlusL h with h | h | h | h | h <;> revert h <;> decide

theorem sharp_not_mem_quotePlus (l : List Char) : '#' ∉ quotePlusL l := by
  intro h
  rcases mem_quotePlusL h with h | h | h | h | h <;> revert h <;> decide

/-! ## Splitting primitives (Python `str.split`) -/

/-- `s.split(sep, 1)`: split at the first occurrence of `sep`, `none` when
`sep` does not occur. -/
def splitFirst (sep : Char) : List Char → Option (List Char × List Char)
  | [] => none
  | c :: t =>
    if c = sep then some ([], t)
    else (splitFirst sep t).map (fun p => (c :: p.1, p.2))

/-- `s.split(sep)` (unbounded), as a list of fields; the empty string
yields `[[]]` like Python's `''.split(sep) == ['']`. -/
def splitAll (sep : Char) : List Char → List (List Char)
  | [] => [[]]
  | c :: t =>
    if c = sep then [] :: splitAll sep t
    else
      match splitAll sep t with
      | h :: r => (c :: h) :: r
      | [] => [[c]]

/-- `sep.join(parts)`. -/
def joinSep (sep : Char) : List (List Char) → List Char
  | [] => []
  | [x] => x
  | x :: y :: t => x ++ sep :: joinSep sep (y :: t)

theorem splitFirst_of_not_mem {sep : Char} {l : List Char} (h : sep ∉ l) :
    splitFirst sep l = none := by
  induction l with
  | nil => rfl
  | cons c t ih =>
    simp only [List.mem_cons, not_or] at h
    simp [splitFirst, h.1, ih h.2, Ne.symm h.1]

theorem splitFirst_append {sep : Char} {a : List Char} (b : List Char)
    (h : sep ∉ a) : splitFirst sep (a ++ sep :: b) = some (a, b) := by
  induction a with
  | nil => simp [splitFirst]
  | cons c t ih =>
    simp only [List.mem_cons, not_or] at h
    simp [splitFirst, Ne.symm h.1, ih h.2]

theorem splitFirst_eq_some {sep : Char} {l a b : List Char}
    (h : splitFirst sep l = some (a, b)) : l = a ++ sep :: b ∧ sep ∉ a := by
  induction l generalizing a with
  | nil => simp [splitFirst] at h
  | cons c t ih =>
    by_cases hc : c = sep
    · subst hc
      simp [splitFirst] at h
      obtain ⟨rfl, rfl⟩ := h
      simp
    · simp [splitFirst, hc] at h
      obtain ⟨p, hp, rfl, rfl⟩ := h
      obtain ⟨rfl, hmem⟩ := ih hp
      refine ⟨by simp, ?_⟩
      simp only [List.mem_cons, not_or]
      exact ⟨Ne.symm hc, hmem⟩

theorem splitAll_of_not_mem {sep : Char} {l : List Char} (h : sep ∉ l) :
    splitAll sep l = [l] := by
  induction l with
  | nil => rfl
  | cons c t ih =>
    simp only [List.mem_cons, not_or] at h
    simp [splitAll, Ne.symm h.1, ih h.2]

theorem splitAll_append {sep : Char} {a : List Char} (b : List Char)
    (h : sep ∉ a) : splitAll sep (a ++ sep :: b) = a :: splitAll sep b := by
  induction a with
  | nil => simp [splitAll]
  | cons c t ih =>
    simp only [List.mem_cons, not_or] at h
    have hne : splitAll sep (t ++ sep :: b) ≠ [] := by
      rw [ih h.2]; simp
    rw [List.cons_append]
    simp only [splitAll, if_neg (Ne.symm h.1 : ¬c = sep)]
    rw [ih h.2]

theorem splitAll_joinSep {sep : Char} {parts : List (List Char)}
    (hne : parts ≠ []) (h : ∀ x ∈ parts, sep ∉ x) :
    splitAll sep (joinSep sep parts) = parts := by
  induction parts with
  | nil => exact absurd rfl hne
  | cons x t ih =>
    cases t with
    | nil =>
      show splitAll sep x = [x]
      exact splitAll_of_not_mem (h x (by simp))
    | cons y t' =>
      show splitAll sep (x ++ sep :: joinSep sep (y :: t')) = x :: y :: t'
      rw [splitAll_append _ (h x (by simp))]
      rw [ih (by simp) (fun z hz => h z (List.mem_cons_of_mem _ hz))]

/-! ## `parse_qsl` / `parse_qs` / `urlencode(..., doseq=True)` -/

/-- The per-field treatment of `parse_qsl(qs)` with the default
`keep_blank_values=False`: empty fields are skipped, fields without `=`
are skipped, fields with an empty value are skipped, and name and value
are `+`/percent-decoded. -/
def parseQslField (nv : List Char) : Option (List Char × List Char) :=
  match splitFirst '=' nv with
  | none => none
  | some (n, v) => if v = [] then none else some (unquotePlusL n, unquotePlusL v)

/-- `urllib.parse.parse_qsl(qs)` (defaults, separator `'&'`). -/
def parseQsl (qs : List Char) : List (List Char × List Char) :=
  (splitAll '&' qs).filterMap parseQslField

/-- One step of the dict construction of `parse_qs`: append the value if
the key exists (keeping its position), otherwise append a new key at the
end (Python dict insertion order). -/
def insertParam (acc : List (List Char × List (List Char)))
    (k : List Char) (v : List Char) : List (List Char × List (List Char)) :=
  match acc with
  | [] => [(k, [v])]
  | (k', vs) :: t =>
    if k' = k then (k', vs ++ [v]) :: t else (k', vs) :: insertParam t k v

/-- `urllib.parse.parse_qs(qs)` (defaults), as an insertion-ordered
association list `key ↦ list of values` mirroring the Python dict. -/
def parseQs (qs : List Char) : List (List Char × List (List Char)) :=
  (parseQsl qs).foldl (fun acc p => insertParam acc p.1 p.2) []

/-- One `name=value` field of `urlencode`. -/
def encodePair (kv : List Char × List Char) : List Char :=
  quotePlusL kv.1 ++ '=' :: quotePlusL kv.2

/-- `urllib.parse.urlencode(query, doseq=True)` over a dict of string
lists: one `k=v` field per list element, joined by `&`, both sides
quoted by `quote_plus`. -/
def urlencodeDoseq (l : List (List Char × List (List Char))) : List Char :=
  joinSep '&' ((l.map fun kv => kv.2.map fun v => encodePair (kv.1, v)).flatten)

/-- The flattened pair sequence represented by a grouped parameter dict. -/
def flatPairs (l : List (List Char × List (List Char))) :
    List (List Char × List Char) :=
  (l.map fun kv => kv.2.map fun v => (kv.1, v)).flatten

def keysOf (l : List (List Char × List (List Char))) : List (List Char) :=
  l.map Prod.fst

/-- Well-formedness of a grouped parameter dict: keys are distinct
(Python dict), every value list is nonempty (`parse_qs` only ever
creates or extends nonempty lists) and every value string is nonempty
(`parse_qsl` with `keep_blank_values=False` drops blank values). -/
def ParamsWF (l : List (List Char × List (List Char))) : Prop :=
  (keysOf l).Nodup ∧ ∀ kv ∈ l, kv.2 ≠ [] ∧ ∀ v ∈ kv.2, v ≠ []

/-! ### `parse_qsl ∘ urlencode` recovers the flattened pairs -/

theorem amp_not_mem_encodePair (kv : List Char × List Char) :
    '&' ∉ encodePair kv := by
  unfold encodePair
  intro h
  rcases List.mem_append.mp h with h | h
  · exact amp_not_mem_quotePlus _ h
  · rcases List.mem_cons.mp h with h | h
    · exact absurd h.symm (by decide)
    · exact amp_not_mem_quotePlus _ h

theorem parseQslField_encodePair {kv : List Char × List Char}
    (hv : kv.2 ≠ []) : parseQslField (encodePair kv) = some kv := by
  obtain ⟨n, v⟩ := kv
  unfold parseQslField encodePair
  rw [splitFirst_append _ (eq_not_mem_quotePlus n)]
  simp only
  rw [if_neg (quotePlus_ne_nil hv)]
  rw [unquotePlus_quotePlus, unquotePlus_quotePlus]

theorem filterMap_eq_self {α : Type} {f : α → Option α} {l : List α}
    (h : ∀ x ∈ l, f x = some x) : l.filterMap f = l := by
  induction l with
  | nil => rfl
  | cons x t ih =>
    rw [List.filterMap_cons, h x (by simp)]
    rw [ih (fun y hy => h y (List.mem_cons_of_mem _ hy))]

theorem map_encodePair_flatPairs (l : List (List Char × List (List Char))) :
    (flatPairs l).map encodePair =
      (l.map fun kv => kv.2.map fun v => encodePair (kv.1, v)).flatten := by
  unfold flatPairs
  rw [List.map_flatten, List.map_map]
  congr 1
  apply List.map_congr_left
  intro kv _
  simp [Function.comp, List.map_map]

theorem parseQsl_urlencode {l : List (List Char × List (List Char))}
    (h : ∀ kv ∈ l, ∀ v ∈ kv.2, v ≠ []) :
    parseQsl (urlencodeDoseq l) = flatPairs l := by
  unfold parseQsl urlencodeDoseq
  rw [← map_encodePair_flatPairs]
  by_cases hnil : (flatPairs l).map encodePair = []
  · rw [hnil]
    have : flatPairs l = [] := by
      simpa using hnil
    rw [this]
    rfl
  · rw [splitAll_joinSep hnil ?memh]
    case memh =>
      intro x hx
      rcases List.mem_map.mp hx with ⟨kv, _, rfl⟩
      exact amp_not_mem_encodePair kv
    rw [List.filterMap_map]
    apply filterMap_eq_self
    intro kv hkv
    have hv : kv.2 ≠ [] := by
      unfold flatPairs at hkv
      rcases List.mem_flatten.mp hkv with ⟨x, hx, hkvx⟩
      rcases List.mem_map.mp hx with ⟨g, hg, rfl⟩
      rcases List.mem_map.mp hkvx with ⟨v, hvg, rfl⟩
      exact h g hg v hvg
    exact parseQslField_encodePair hv

/-! ### regrouping the flattened pairs recovers a well-formed dict -/

theorem keysOf_cons (kv : List Char × List (List Char))
    (t : List (List Char × List (List Char))) :
    keysOf (kv :: t) = kv.1 :: keysOf t := rfl

theorem keysOf_insertParam (acc : List (List Char × List (List Char)))
    (k : List Char) (v : List Char) :
    keysOf (insertParam acc k v) =
      if k ∈ keysOf acc then keysOf acc else keysOf acc ++ [k] := by
  induction acc with
  | nil => simp [insertParam, keysOf]
  | cons kv t ih =>
    obtain ⟨k', vs⟩ := kv
    by_cases hk : k' = k
    · subst hk
      simp [insertParam, keysOf]
    · have hne : k ≠ k' := fun he => hk he.symm
      rw [show insertParam ((k', vs) :: t) k v = (k', vs) :: insertParam t k v by
        simp [insertParam, hk]]
      rw [keysOf_cons, keysOf_cons, ih]
      by_cases hmem : k ∈ keysOf t
      · rw [if_pos hmem, if_pos (List.mem_cons_of_mem _ hmem)]
      · rw [if_neg hmem, if_neg (by simp [List.mem_cons, hne, hmem])]
        simp

theorem insertParam_not_mem {acc : List (List Char × List (List Char))}
    {k : List Char} (v : List Char) (h : k ∉ keysOf acc) :
    insertParam acc k v = acc ++ [(k, [v])] := by
  induction acc with
  | nil => rfl
  | cons kv t ih =>
    obtain ⟨k', vs⟩ := kv
    have hk : k' ≠ k := by
      intro he
      exact h (by simp [keysOf, he])
    simp only [insertParam, if_neg hk, List.cons_append]
    rw [ih (fun hm => h (by simp [keysOf] at hm ⊢; exact Or.inr hm))]

theorem insertParam_last {acc : List (List Char × List (List Char))}
    {k : List Char} (vs : List (List Char)) (v : List Char)
    (h : k ∉ keysOf acc) :
    insertParam (acc ++ [(k, vs)]) k v = acc ++ [(k, vs ++ [v])] := by
  induction acc with
  | nil => simp [insertParam]
  | cons kv t ih =>
    obtain ⟨k', ws⟩ := kv
    have hk : k' ≠ k := by
      intro he
      exact h (by simp [keysOf, he])
    simp only [List.cons_append, insertParam, if_neg hk]
    congr 1
    exact ih (fun hm => h (by simp [keysOf] at hm ⊢; exact Or.inr hm))

/-- Folding the pairs of one key group onto an accumulator that does not
yet contain the key appends exactly that group. -/
theorem foldl_insert_group {k : List Char}
    {acc : List (List Char × List (List Char))} {vs : List (List Char)}
    (hk : k ∉ keysOf acc) (hvs : vs ≠ []) :
    (vs.map fun v => ((k, v) : List Char × List Char)).foldl
      (fun a p => insertParam a p.1 p.2) acc = acc ++ [(k, vs)] := by
  obtain ⟨v, vs', rfl⟩ : ∃ v vs', vs = v :: vs' := by
    cases vs with
    | nil => exact absurd rfl hvs
    | cons v vs' => exact ⟨v, vs', rfl⟩
  clear hvs
  simp only [List.map_cons, List.foldl_cons]
  rw [insertParam_not_mem v hk]
  -- now fold the rest onto `acc ++ [(k, [v])]`, generalizing the group
  suffices H : ∀ (ws : List (List Char)) (pre : List (List Char)),
      pre ≠ [] →
      (ws.map fun v => ((k, v) : List Char × List Char)).foldl
        (fun a p => insertParam a p.1 p.2) (acc ++ [(k, pre)]) =
        acc ++ [(k, pre ++ ws)] by
    have := H vs' [v] (by simp)
    simpa using this
  intro ws
  induction ws with
  | nil => intro pre _; simp
  | cons w ws' ih =>
    intro pre hpre
    simp only [List.map_cons, List.foldl_cons]
    rw [insertParam_last pre w hk]
    rw [ih (pre ++ [w]) (by simp)]
    simp

/-- Folding all flattened pairs of a well-formed dict whose keys avoid
the accumulator appends the dict itself. -/
theorem foldl_insert_flatPairs
    {l acc : List (List Char × List (List Char))}
    (hnd : (keysOf l).Nodup) (hvne : ∀ kv ∈ l, kv.2 ≠ [])
    (hdisj : ∀ k ∈ keysOf l, k ∉ keysOf acc) :
    (flatPairs l).foldl (fun a p => insertParam a p.1 p.2) acc = acc ++ l := by
  induction l generalizing acc with
  | nil => simp [flatPairs]
  | cons kv t ih =>
    obtain ⟨k, vs⟩ := kv
    have hflat : flatPairs ((k, vs) :: t) =
        (vs.map fun v => (k, v)) ++ flatPairs t := by
      simp [flatPairs]
    rw [hflat, List.foldl_append]
    have hk : k ∉ keysOf acc := hdisj k (by simp [keysOf])
    rw [foldl_insert_group hk (hvne (k, vs) (by simp))]
    have hndt : (keysOf t).Nodup := by
      have : keysOf ((k, vs) :: t) = k :: keysOf t := rfl
      rw [this] at hnd
      exact hnd.of_cons
    have hknott : k ∉ keysOf t := by
      have : keysOf ((k, vs) :: t) = k :: keysOf t := rfl
      rw [this] at hnd
      exact (List.nodup_cons.mp hnd).1
    rw [ih hndt (fun g hg => hvne g (List.mem_cons_of_mem _ hg)) ?hd]
    · simp
    case hd =>
      intro k' hk'
      have hk'' : k' ∈ keysOf ((k, vs) :: t) := by
        rw [keysOf_cons]
        exact List.mem_cons_of_mem _ hk'
      intro hmem
      have hsplit : keysOf (acc ++ [(k, vs)]) = keysOf acc ++ [k] := by
        simp [keysOf]
      rw [hsplit] at hmem
      rcases List.mem_append.mp hmem with hm | hm
      · exact hdisj k' hk'' hm
      · simp at hm
        subst hm
        exact hknott hk'

/-- `parse_qs(urlencode(d, doseq=True)) == d` for a well-formed dict. -/
theorem parseQs_urlencode {l : List (List Char × List (List Char))}
    (h : ParamsWF l) : parseQs (urlencodeDoseq l) = l := by
  unfold parseQs
  rw [parseQsl_urlencode (fun kv hkv v hv => (h.2 kv hkv).2 v hv)]
  have := @foldl_insert_flatPairs l [] h.1
    (fun kv hkv => (h.2 kv hkv).1) (by simp [keysOf])
  simpa using this

/-! ### the image of `parse_qs` is well-formed -/

theorem unquotePlus_ne_nil {l : List Char} (h : l ≠ []) :
    unquotePlusL l ≠ [] := by
  cases l with
  | nil => exact absurd rfl h
  | cons c t =>
    rw [unquotePlusL.eq_def]
    repeat' split
    all_goals simp_all

theorem parseQsl_values_ne_nil {qs : List Char} {kv : List Char × List Char}
    (h : kv ∈ parseQsl qs) : kv.2 ≠ [] := by
  unfold parseQsl at h
  rcases List.mem_filterMap.mp h with ⟨nv, _, hnv⟩
  unfold parseQslField at hnv
  rcases hsf : splitFirst '=' nv with _ | ⟨n, v⟩ <;> rw [hsf] at hnv
  · simp at hnv
  · by_cases hv : v = []
    · simp [hv] at hnv
    · simp only [if_neg hv] at hnv
      have : kv = (unquotePlusL n, unquotePlusL v) := by
        have h' : some (unquotePlusL n, unquotePlusL v) = some kv := hnv
        injection h' with h''
        exact h''.symm
      rw [this]
      exact unquotePlus_ne_nil hv

/-- `insertParam` preserves well-formedness and inserts nonempty values. -/
theorem ParamsWF_insertParam {acc : List (List Char × List (List Char))}
    {k : List Char} {v : List Char} (hwf : ParamsWF acc) (hv : v ≠ []) :
    ParamsWF (insertParam acc k v) := by
  constructor
  · rw [keysOf_insertParam]
    by_cases hk : k ∈ keysOf acc
    · rw [if_pos hk]; exact hwf.1
    · rw [if_neg hk]
      exact List.Nodup.append hwf.1 (by simp)
        (by
          rw [List.disjoint_singleton]
          exact hk)
  · intro kv hkv
    induction acc with
    | nil =>
      simp [insertParam] at hkv
      subst hkv
      exact ⟨by simp, by simp [hv]⟩
    | cons g t ih =>
      obtain ⟨k', vs⟩ := g
      by_cases hk : k' = k
      · subst hk
        simp only [insertParam, if_pos rfl] at hkv
        rcases List.mem_cons.mp hkv with rfl | hm
        · refine ⟨by simp, ?_⟩
          intro w hw
          rcases List.mem_append.mp hw with hw | hw
          · exact (hwf.2 (k', vs) (by simp)).2 w hw
          · simp at hw; subst hw; exact hv
        · exact hwf.2 kv (List.mem_cons_of_mem _ hm)
      · simp only [insertParam, if_neg hk] at hkv
        rcases List.mem_cons.mp hkv with rfl | hm
        · exact hwf.2 (k', vs) (by simp)
        · refine ih ?_ hm
          constructor
          · have : keysOf ((k', vs) :: t) = k' :: keysOf t := rfl
            have h2 := hwf.1
            rw [this] at h2
            exact h2.of_cons
          · intro g hg
            exact hwf.2 g (List.mem_cons_of_mem _ hg)

theorem ParamsWF_parseQs (qs : List Char) : ParamsWF (parseQs qs) := by
  unfold parseQs
  have H : ∀ (ps : List (List Char × List Char))
      (acc : List (List Char × List (List Char))),
      (∀ p ∈ ps, p.2 ≠ []) → ParamsWF acc →
      ParamsWF (ps.foldl (fun a p => insertParam a p.1 p.2) acc) := by
    intro ps
    induction ps with
    | nil => intro acc _ hacc; exact hacc
    | cons p t ih =>
      intro acc hne hacc
      simp only [List.foldl_cons]
      exact ih _ (fun q hq => hne q (List.mem_cons_of_mem _ hq))
        (ParamsWF_insertParam hacc (hne p (by simp)))
  exact H _ _ (fun p hp => parseQsl_values_ne_nil hp)
    ⟨by simp [keysOf], by simp⟩

/-! ## `urlsplit` / `urlparse` / `urlunsplit` / `urlunparse`
(CPython `urllib/parse.py`, 3.11-era; the `ValueError` branches for
malformed bracketed IPv6 hosts are omitted — they concern inputs outside
the claims' scope and the callers wrap every parse in a fail-open
`try/except` anyway). -/

/-- `_WHATWG_C0_CONTROL_OR_SPACE`: code points `≤ 0x20`, lstripped from
the URL by `urlsplit`. -/
def isC0OrSpace (c : Char) : Bool := c.toNat ≤ 0x20

/-- `_UNSAFE_URL_BYTES_TO_REMOVE = ['\t', '\r', '\n']`, removed
everywhere by `urlsplit`. -/
def isUnsafeUrlChar (c : Char) : Bool := c = '\t' || c = '\r' || c = '\n'

structure UrlSplitR where
  scheme : List Char
  netloc : List Char
  path : List Char
  query : List Char
  fragment : List Char
deriving DecidableEq

/-- The six components of `urlparse` (`ParseResult`). -/
structure UrlParsedR where
  scheme : List Char
  netloc : List Char
  path : List Char
  params : List Char
  query : List Char
  fragment : List Char
deriving DecidableEq

/-- A valid scheme prefix: nonempty, leading ASCII letter, all characters
in `scheme_chars` (`url[0].isascii() and url[0].isalpha()` plus the
`scheme_chars` loop of `urlsplit`). -/
def validSchemePrefix (pre : List Char) : Bool :=
  match pre with
  | [] => false
  | c :: _ => isAsciiAlpha c && pre.all isSchemeChar

/-- Scheme detection of `urlsplit`: look at the first `:`; if the part
before it is a valid scheme prefix, lowercase it and strip it. -/
def splitScheme (url : List Char) : List Char × List Char :=
  match splitFirst ':' url with
  | none => ([], url)
  | some (pre, post) =>
    if validSchemePrefix pre then (lowerL pre, post) else ([], url)

def netlocDelim (c : Char) : Bool := c = '/' || c = '?' || c = '#'

/-- `_splitnetloc`: the netloc runs to the first of `/?#`. -/
def splitNetloc (rest : List Char) : List Char × List Char :=
  (rest.takeWhile (fun c => !netlocDelim c),
   rest.dropWhile (fun c => !netlocDelim c))

/-- `if sep in url: url.split(sep, 1) else (url, '')`. -/
def splitOpt (sep : Char) (l : List Char) : List Char × List Char :=
  match splitFirst sep l with
  | none => (l, [])
  | some (a, b) => (a, b)

def urlsplitL (url0 : List Char) : UrlSplitR :=
  let url1 := (url0.dropWhile isC0OrSpace).filter (fun c => !isUnsafeUrlChar c)
  let sp := splitScheme url1
  let scheme := sp.1
  let nl := if sp.2.take 2 = ['/', '/'] then splitNetloc (sp.2.drop 2)
            else ([], sp.2)
  let fr := splitOpt '#' nl.2
  let pq := splitOpt '?' fr.1
  ⟨scheme, nl.1, pq.1, pq.2, fr.2⟩

/-- `uses_params` of `urllib.parse`. -/
def usesParamsSchemes : List (List Char) :=
  (["", "ftp", "hdl", "prospero", "http", "imap", "https", "shttp", "rtsp",
    "rtspu", "sip", "sips", "mms", "sftp", "tel"] : List String).map
    String.data

def usesParams (scheme : List Char) : Bool :=
  usesParamsSchemes.any (fun s => s = scheme)

def elemChar (c : Char) (l : List Char) : Bool := l.any (fun d => d = c)

theorem elemChar_iff {c : Char} {l : List Char} :
    elemChar c l = true ↔ c ∈ l := by
  unfold elemChar
  rw [List.any_eq_true]
  constructor
  · rintro ⟨d, hd, he⟩
    exact (of_decide_eq_true he) ▸ hd
  · intro h
    exact ⟨c, h, by simp⟩

/-- Split at the last occurrence of `sep` (`str.rfind`). -/
def splitLast (sep : Char) : List Char → Option (List Char × List Char)
  | [] => none
  | c :: t =>
    match splitLast sep t with
    | some (a, b) => some (c :: a, b)
    | none => if c = sep then some ([], t) else none

/-- `_splitparams`: split path parameters at the first `;` that follows
the last `/` (or the first `;` at all when the path has no `/`). -/
def splitParams (path : List Char) : List Char × List Char :=
  match splitLast '/' path with
  | some (pre, seg) =>
    match splitFirst ';' seg with
    | none => (path, [])
    | some (a, b) => (pre ++ '/' :: a, b)
  | none =>
    match splitFirst ';' path with
    | none => (path, [])
    | some (a, b) => (a, b)

def urlparseL (url : List Char) : UrlParsedR :=
  let s := urlsplitL url
  if usesParams s.scheme && elemChar ';' s.path then
    let pp := splitParams s.path
    ⟨s.scheme, s.netloc, pp.1, pp.2, s.query, s.fragment⟩
  else ⟨s.scheme, s.netloc, s.path, [], s.query, s.fragment⟩

def urlunsplitL (s : UrlSplitR) : List Char :=
  let url := s.path
  let url := if s.netloc ≠ [] ∨ (url ≠ [] ∧ url.take 2 = ['/', '/']) then
      '/' :: '/' :: (s.netloc ++
        (if url ≠ [] ∧ url.head? ≠ some '/' then '/' :: url else url))
    else url
  let url := if s.scheme ≠ [] then s.scheme ++ ':' :: url else url
  let url := if s.query ≠ [] then url ++ '?' :: s.query else url
  if s.fragment ≠ [] then url ++ '#' :: s.fragment else url

/-- `"%s;%s" % (url, params) if params else url`. -/
def pathWithParams (path params : List Char) : List Char :=
  if params ≠ [] then path ++ ';' :: params else path

def urlunparseL (p : UrlParsedR) : List Char :=
  urlunsplitL ⟨p.scheme, p.netloc, pathWithParams p.path p.params,
    p.query, p.fragment⟩

/-! ## `LinkResolver._clean_url` -/

/-- The deny-list `remove_params` of `_clean_url`, exactly as written in
the source (a Python set literal; duplicates are immaterial, order is
immaterial — only membership is used). -/
def removeParams : List String := [
  -- General tracking
  "utm_source", "utm_medium", "utm_campaign", "utm_content", "utm_term",
  "gclid", "fbclid", "msclkid", "dclid", "gbraid", "wbraid",
  -- Amazon
  "tag", "linkCode", "linkId", "ref_", "pf_rd_p", "pf_rd_r",
  "pf_rd_s", "pf_rd_t", "pf_rd_i", "pf_rd_m", "pd_rd_r",
  "pd_rd_w", "pd_rd_wg", "psc", "refRID", "th", "psc",
  -- Walmart
  "athbdg", "athznb", "athiid", "athstid", "athena_met",
  "adid", "wmlspartner", "sourceid", "affillinktype",
  "veh", "wmlspartner", "selectedSellerId",
  -- Best Buy
  "ref", "loc", "acampID", "irclickid", "irgwc",
  "mpid", "intl",
  -- Canadian Tire
  "cid", "utm_", "gclid", "referrer",
  -- Generic affiliate
  "aff", "affiliate", "partner", "promo", "coupon",
  "discount", "offer", "ref", "source", "medium", "campaign",
  -- Social media
  "igshid", "fbclid", "share", "shared",
  -- Email marketing
  "email", "em", "newsletter", "mkt_tok", "trk",
  -- Other tracking
  "mc_cid", "mc_eid", "_ga", "_gid", "_gac", "gclsrc"]

/-- The `startswith` prefix tuple of `_clean_url`. -/
def trackingPrefixes : List String :=
  ["utm_", "ga_", "gclid", "fbclid", "msclkid", "_"]

/-- The keep-condition of `_clean_url`'s filter loop:
`key.lower() not in remove_params and not key.lower().startswith((...))`. -/
def keepKey (key : List Char) : Bool :=
  !(removeParams.any (fun s => s.data = lowerL key)) &&
  !(trackingPrefixes.any (fun s => s.data.isPrefixOf (lowerL key)))

/-- `LinkResolver._clean_url` (the `try` branch; the embedded functions
are total, so the fail-open `except` branch is dead). -/
def cleanUrlL (url : List Char) : List Char :=
  let p := urlparseL url
  let qp := parseQs p.query
  let cleaned := qp.filter (fun kv => keepKey kv.1)
  let newQuery := if cleaned ≠ [] then urlencodeDoseq cleaned else []
  urlunparseL { p with query := newQuery }

def cleanUrl (url : String) : String := ⟨cleanUrlL url.data⟩

/-! ## Inversion lemmas for the URL splitting stages -/

theorem first_split_unique {sep : Char} {a b c d : List Char}
    (h : a ++ sep :: b = c ++ sep :: d) (ha : sep ∉ a) (hc : sep ∉ c) :
    a = c ∧ b = d := by
  induction a generalizing c with
  | nil =>
    cases c with
    | nil => simp_all
    | cons y c' =>
      simp only [List.nil_append, List.cons_append, List.cons.injEq] at h
      exact absurd (show sep ∈ y :: c' by
        rw [h.1]; exact List.mem_cons_self y c') hc
  | cons x a' ih =>
    cases c with
    | nil =>
      simp only [List.cons_append, List.nil_append, List.cons.injEq] at h
      exact absurd (show sep ∈ x :: a' by
        rw [← h.1]; exact List.mem_cons_self x a') ha
    | cons y c' =>
      simp only [List.cons_append, List.cons.injEq] at h
      obtain ⟨rfl, h2⟩ := h
      obtain ⟨rfl, rfl⟩ := ih h2 (by
          intro hm
          exact ha (List.mem_cons_of_mem _ hm))
        (by
          intro hm
          exact hc (List.mem_cons_of_mem _ hm))
      simp

theorem splitOpt_append {sep : Char} {a : List Char} (b : List Char)
    (h : sep ∉ a) : splitOpt sep (a ++ sep :: b) = (a, b) := by
  unfold splitOpt
  rw [splitFirst_append _ h]

theorem splitOpt_of_not_mem {sep : Char} {l : List Char} (h : sep ∉ l) :
    splitOpt sep l = (l, []) := by
  unfold splitOpt
  rw [splitFirst_of_not_mem h]

theorem splitFirst_eq_none {sep : Char} {l : List Char}
    (h : splitFirst sep l = none) : sep ∉ l := by
  induction l with
  | nil => simp
  | cons c t ih =>
    by_cases hc : c = sep
    · subst hc
      simp [splitFirst] at h
    · simp only [splitFirst, if_neg hc, Option.map_eq_none'] at h
      intro hm
      rcases List.mem_cons.mp hm with he | hm
      · exact hc he.symm
      · exact ih h hm

/-- Inversion for `splitOpt`. -/
theorem splitOpt_eq {sep : Char} {l a b : List Char}
    (h : splitOpt sep l = (a, b)) :
    (l = a ++ sep :: b ∧ sep ∉ a) ∨ (a = l ∧ b = [] ∧ sep ∉ l) := by
  unfold splitOpt at h
  rcases hsf : splitFirst sep l with _ | ⟨x, y⟩ <;> rw [hsf] at h
  · right
    rw [Prod.ext_iff] at h
    obtain ⟨h1, h2⟩ := h
    exact ⟨h1.symm, h2.symm, splitFirst_eq_none hsf⟩
  · left
    rw [Prod.ext_iff] at h
    obtain ⟨h1, h2⟩ := h
    simp only at h1 h2
    subst h1
    subst h2
    exact splitFirst_eq_some hsf

/-! ### scheme stage -/

/-- No prefix of `l` ending at a first colon is a valid scheme: parsing
`l` detects no scheme.  (Only the first colon can satisfy `':' ∉ pre`,
so this quantification constrains exactly the test `urlsplit` makes.) -/
def NoSchemePrefix (l : List Char) : Prop :=
  ∀ pre post, l = pre ++ ':' :: post → ':' ∉ pre →
    validSchemePrefix pre = false

theorem colon_not_schemeChar : isSchemeChar ':' = false := by decide

theorem validSchemePrefix_no_colon {pre : List Char}
    (h : validSchemePrefix pre = true) : ':' ∉ pre := by
  intro hm
  unfold validSchemePrefix at h
  cases pre with
  | nil => simp at hm
  | cons c t =>
    have hall := (Bool.and_eq_true_iff.mp h).2
    rw [List.all_eq_true] at hall
    have := hall ':' hm
    exact absurd this (by decide)

theorem splitScheme_valid {s : List Char} (rest : List Char)
    (h : validSchemePrefix s = true) :
    splitScheme (s ++ ':' :: rest) = (lowerL s, rest) := by
  unfold splitScheme
  rw [splitFirst_append _ (validSchemePrefix_no_colon h)]
  dsimp only
  rw [if_pos h]

theorem splitScheme_nsp {l : List Char} (h : NoSchemePrefix l) :
    splitScheme l = ([], l) := by
  unfold splitScheme
  rcases hsf : splitFirst ':' l with _ | ⟨pre, post⟩
  · rfl
  · obtain ⟨rfl, hnm⟩ := splitFirst_eq_some hsf
    dsimp only
    rw [h pre post rfl hnm]
    simp

/-- A string whose head is not a scheme character detects no scheme. -/
theorem nsp_of_head {c : Char} (t : List Char)
    (hc : isSchemeChar c = false) : NoSchemePrefix (c :: t) := by
  intro pre post he _
  cases pre with
  | nil => rfl
  | cons x xs =>
    simp only [List.cons_append, List.cons.injEq] at he
    unfold validSchemePrefix
    rw [Bool.eq_false_iff]
    intro hv
    have hall := (Bool.and_eq_true_iff.mp hv).2
    rw [List.all_eq_true] at hall
    have := hall x (List.mem_cons_self x xs)
    rw [← he.1] at this
    rw [this] at hc
    exact Bool.noConfusion hc

theorem NoSchemePrefix_nil : NoSchemePrefix [] := by
  intro pre post he _
  exact absurd he (by simp)

/-- `NoSchemePrefix` is inherited by prefixes. -/
theorem NoSchemePrefix_prefix {a l : List Char} (h : NoSchemePrefix l)
    (hp : a <+: l) : NoSchemePrefix a := by
  intro pre post he hnm
  obtain ⟨rest, rfl⟩ := hp
  subst he
  exact h pre (post ++ rest) (by simp) hnm

/-- A nonempty prefix containing a non-scheme character is not a valid
scheme. -/
theorem validSchemePrefix_false_of_mem {pre : List Char} {d : Char}
    (hdin : d ∈ pre) (hd : isSchemeChar d = false) :
    validSchemePrefix pre = false := by
  unfold validSchemePrefix
  cases pre with
  | nil => rfl
  | cons x xs =>
    rw [Bool.eq_false_iff]
    intro hv
    have hall := (Bool.and_eq_true_iff.mp hv).2
    rw [List.all_eq_true] at hall
    have := hall d hdin
    rw [this] at hd
    exact Bool.noConfusion hd

theorem NoSchemePrefix_append_delim {a : List Char} {d : Char}
    (rest : List Char) (ha : NoSchemePrefix a)
    (hd : isSchemeChar d = false) (hdc : d ≠ ':') :
    NoSchemePrefix (a ++ d :: rest) := by
  intro pre post he hnm
  rcases List.append_eq_append_iff.mp he with ⟨w, hw1, hw2⟩ | ⟨w, hw1, hw2⟩
  · -- `pre = a ++ w`
    cases w with
    | nil =>
      simp only [List.nil_append, List.cons.injEq] at hw2
      exact absurd hw2.1 hdc
    | cons x w' =>
      simp only [List.cons_append, List.cons.injEq] at hw2
      have hdin : d ∈ pre := by
        rw [hw1, ← hw2.1]
        exact List.mem_append_right _ (List.mem_cons_self _ _)
      exact validSchemePrefix_false_of_mem hdin hd
  · -- `a = pre ++ w`
    cases w with
    | nil =>
      simp only [List.nil_append, List.cons.injEq] at hw2
      exact absurd hw2.1.symm hdc
    | cons x w' =>
      simp only [List.cons_append, List.cons.injEq] at hw2
      exact ha pre w' (by rw [hw1, hw2.1]) hnm

/-! ### netloc stage -/

theorem mem_takeWhile_pred {p : Char → Bool} {l : List Char} {c : Char}
    (h : c ∈ l.takeWhile p) : p c = true := by
  induction l with
  | nil => simp [List.takeWhile] at h
  | cons x t ih =>
    rw [List.takeWhile_cons] at h
    by_cases hx : p x
    · rw [if_pos hx] at h
      rcases List.mem_cons.mp h with rfl | h
      · exact hx
      · exact ih h
    · rw [if_neg hx] at h
      simp at h

theorem dropWhile_head_false {p : Char → Bool} {l : List Char} {c : Char}
    {t : List Char} (h : l.dropWhile p = c :: t) : p c = false := by
  induction l with
  | nil => simp [List.dropWhile] at h
  | cons x u ih =>
    rw [List.dropWhile_cons] at h
    by_cases hx : p x
    · rw [if_pos hx] at h
      exact ih h
    · rw [if_neg hx] at h
      obtain ⟨rfl, -⟩ := List.cons.injEq .. ▸ h
      exact Bool.eq_false_iff.mpr hx

theorem dropWhile_eq_self_of_head {p : Char → Bool} {l : List Char}
    (h : l = [] ∨ ∃ c t, l = c :: t ∧ p c = false) :
    l.dropWhile p = l := by
  rcases h with rfl | ⟨c, t, rfl, hc⟩
  · rfl
  · rw [List.dropWhile_cons, if_neg (by simp [hc])]

theorem splitNetloc_recover {netloc rest : List Char}
    (h : ∀ c ∈ netloc, netlocDelim c = false)
    (hr : rest = [] ∨ ∃ c t, rest = c :: t ∧ netlocDelim c = true) :
    splitNetloc (netloc ++ rest) = (netloc, rest) := by
  unfold splitNetloc
  induction netloc with
  | nil =>
    simp only [List.nil_append]
    rcases hr with rfl | ⟨c, t, rfl, hc⟩
    · simp
    · rw [List.takeWhile_cons, List.dropWhile_cons]
      simp [hc]
  | cons x u ih =>
    have hx : netlocDelim x = false := h x (by simp)
    rw [List.cons_append, List.takeWhile_cons, List.dropWhile_cons]
    simp only [hx, Bool.not_false, if_true]
    have := ih (fun c hc => h c (List.mem_cons_of_mem _ hc))
    rw [Prod.ext_iff] at this ⊢
    simp only at this ⊢
    exact ⟨by rw [this.1], this.2⟩

/-! ### params stage -/

theorem splitLast_eq_none {sep : Char} {l : List Char}
    (h : splitLast sep l = none) : sep ∉ l := by
  induction l with
  | nil => simp
  | cons c t ih =>
    rw [splitLast.eq_def] at h
    dsimp only at h
    rcases hsl : splitLast sep t with _ | p <;> rw [hsl] at h
    · simp only at h
      by_cases hc : c = sep
      · rw [if_pos hc] at h
        exact absurd h (by simp)
      · intro hm
        rcases List.mem_cons.mp hm with he | hm
        · exact hc he.symm
        · exact ih hsl hm
    · exact absurd h (by simp)

theorem splitLast_eq_some {sep : Char} {l a b : List Char}
    (h : splitLast sep l = some (a, b)) : l = a ++ sep :: b ∧ sep ∉ b := by
  induction l generalizing a with
  | nil => simp [splitLast] at h
  | cons c t ih =>
    rw [splitLast.eq_def] at h
    dsimp only at h
    rcases hsl : splitLast sep t with _ | ⟨x, y⟩ <;> rw [hsl] at h
    · simp only at h
      by_cases hc : c = sep
      · rw [if_pos hc] at h
        simp only [Option.some.injEq, Prod.mk.injEq] at h
        obtain ⟨rfl, rfl⟩ := h
        subst hc
        exact ⟨by simp, splitLast_eq_none hsl⟩
      · rw [if_neg hc] at h
        exact absurd h (by simp)
    · simp only [Option.some.injEq, Prod.mk.injEq] at h
      obtain ⟨h1, rfl⟩ := h
      obtain ⟨rfl, hy⟩ := ih hsl
      cases a with
      | nil => simp at h1
      | cons a0 a' =>
        simp only [List.cons.injEq] at h1
        obtain ⟨rfl, rfl⟩ := h1
        exact ⟨by simp, hy⟩

theorem splitLast_of_not_mem {sep : Char} {l : List Char} (h : sep ∉ l) :
    splitLast sep l = none := by
  induction l with
  | nil => rfl
  | cons c t ih =>
    rw [splitLast.eq_def]
    dsimp only
    rw [ih (fun hm => h (List.mem_cons_of_mem _ hm))]
    rw [if_neg (fun he => h (show sep ∈ c :: t by
      rw [he]; exact List.mem_cons_self _ _))]

theorem splitLast_append {sep : Char} (a : List Char) {b : List Char}
    (h : sep ∉ b) : splitLast sep (a ++ sep :: b) = some (a, b) := by
  induction a with
  | nil =>
    rw [List.nil_append, splitLast.eq_def]
    dsimp only
    rw [splitLast_of_not_mem h]
    simp
  | cons c t ih =>
    rw [List.cons_append, splitLast.eq_def]
    dsimp only
    rw [ih]

/-- The path and parameters re-joined are an initial segment of the
original path (the whole path, except when a `;` with an empty parameter
part is dropped). -/
theorem splitParams_prefix (s : List Char) :
    pathWithParams (splitParams s).1 (splitParams s).2 <+: s := by
  unfold splitParams
  rcases hsl : splitLast '/' s with _ | ⟨pre, seg⟩ <;> dsimp only
  · rcases hsf : splitFirst ';' s with _ | ⟨x, y⟩ <;> dsimp only
    · simp [pathWithParams]
    · obtain ⟨heq, hnm⟩ := splitFirst_eq_some hsf
      dsimp only [pathWithParams]
      by_cases hy : y ≠ []
      · rw [if_pos hy, ← heq]
      · rw [if_neg hy]
        exact ⟨';' :: y, heq.symm⟩
  · obtain ⟨hs, hns⟩ := splitLast_eq_some hsl
    rcases hsf : splitFirst ';' seg with _ | ⟨x, y⟩ <;> dsimp only
    · simp [pathWithParams]
    · obtain ⟨hseg, hnm⟩ := splitFirst_eq_some hsf
      dsimp only [pathWithParams]
      by_cases hy : y ≠ []
      · rw [if_pos hy, hs, hseg]
        simp
      · rw [if_neg hy]
        refine ⟨';' :: y, ?_⟩
        rw [hs, hseg]
        simp

/-- Re-splitting the re-joined path and parameters gives them back. -/
theorem splitParams_stable (s : List Char) :
    splitParams (pathWithParams (splitParams s).1 (splitParams s).2) =
      splitParams s := by
  rcases hsp : splitParams s with ⟨a, b⟩
  by_cases hb : b ≠ []
  · -- re-joined equals `s` itself
    have hjoin : pathWithParams a b = s := by
      unfold splitParams at hsp
      rcases hsl : splitLast '/' s with _ | ⟨pre, seg⟩ <;>
        rw [hsl] at hsp <;> dsimp only at hsp
      · rcases hsf : splitFirst ';' s with _ | ⟨x, y⟩ <;>
          rw [hsf] at hsp <;> dsimp only at hsp
        · simp only [Prod.mk.injEq] at hsp
          exact absurd hsp.2.symm hb
        · simp only [Prod.mk.injEq] at hsp
          obtain ⟨rfl, rfl⟩ := hsp
          obtain ⟨hs, -⟩ := splitFirst_eq_some hsf
          rw [pathWithParams, if_pos hb, hs]
      · rcases hsf : splitFirst ';' seg with _ | ⟨x, y⟩ <;>
          rw [hsf] at hsp <;> dsimp only at hsp
        · simp only [Prod.mk.injEq] at hsp
          exact absurd hsp.2.symm hb
        · simp only [Prod.mk.injEq] at hsp
          obtain ⟨rfl, rfl⟩ := hsp
          obtain ⟨hseg, -⟩ := splitFirst_eq_some hsf
          obtain ⟨hs, -⟩ := splitLast_eq_some hsl
          rw [pathWithParams, if_pos hb, hs, hseg]
          simp
    rw [hjoin, hsp]
  · -- `b = []`: the re-joined path is `a`, and `a` re-splits to `(a, [])`
    rw [not_not] at hb
    subst hb
    have hres : splitParams a = (a, []) := by
      unfold splitParams at hsp ⊢
      rcases hsl : splitLast '/' s with _ | ⟨pre, seg⟩ <;>
        rw [hsl] at hsp <;> dsimp only at hsp
      · rcases hsf : splitFirst ';' s with _ | ⟨x, y⟩ <;>
          rw [hsf] at hsp <;> dsimp only at hsp
        · simp only [Prod.mk.injEq] at hsp
          obtain ⟨rfl, -⟩ := hsp
          rw [hsl, hsf]
        · simp only [Prod.mk.injEq] at hsp
          obtain ⟨rfl, -⟩ := hsp
          obtain ⟨hs, hnm⟩ := splitFirst_eq_some hsf
          have hslash : '/' ∉ x := fun hm =>
            splitLast_eq_none hsl (show '/' ∈ s by
              rw [hs]; exact List.mem_append_left _ hm)
          rw [splitLast_of_not_mem hslash, splitFirst_of_not_mem hnm]
      · rcases hsf : splitFirst ';' seg with _ | ⟨x, y⟩ <;>
          rw [hsf] at hsp <;> dsimp only at hsp
        · simp only [Prod.mk.injEq] at hsp
          obtain ⟨rfl, -⟩ := hsp
          rw [hsl]
          dsimp only
          rw [hsf]
        · simp only [Prod.mk.injEq] at hsp
          obtain ⟨rfl, -⟩ := hsp
          obtain ⟨hs, hns⟩ := splitLast_eq_some hsl
          obtain ⟨hseg, hnm⟩ := splitFirst_eq_some hsf
          have hslashx : '/' ∉ x := fun hm =>
            hns (show '/' ∈ seg by
              rw [hseg]; exact List.mem_append_left _ hm)
          rw [splitLast_append pre hslashx]
          dsimp only
          rw [splitFirst_of_not_mem hnm]
    rw [pathWithParams, if_neg (by simp), hres]

/-! ### the invariant of parsed URLs, and the unparse/parse round trip -/

/-- The netloc/path portion assembled by `urlunsplit`. -/
def ensureSlash (path : List Char) : List Char :=
  if path ≠ [] ∧ path.head? ≠ some '/' then '/' :: path else path

def baseOf (s : UrlSplitR) : List Char :=
  if s.netloc ≠ [] ∨ (s.path ≠ [] ∧ s.path.take 2 = ['/', '/']) then
    '/' :: '/' :: (s.netloc ++ ensureSlash s.path)
  else s.path

def optPre (sep : Char) (l : List Char) : List Char :=
  if l ≠ [] then sep :: l else []

theorem unsplit_shape (s : UrlSplitR) :
    urlunsplitL s =
      (if s.scheme ≠ [] then s.scheme ++ [':'] else []) ++ baseOf s ++
        optPre '?' s.query ++ optPre '#' s.fragment := by
  unfold urlunsplitL baseOf ensureSlash optPre
  by_cases h1 : s.netloc ≠ [] ∨ (s.path ≠ [] ∧ s.path.take 2 = ['/', '/']) <;>
    by_cases h2 : s.scheme ≠ [] <;>
    by_cases h3 : s.query ≠ [] <;>
    by_cases h4 : s.fragment ≠ [] <;>
    simp [h1, h2, h3, h4, List.append_assoc]

/-- The invariants every `urlsplitL` output satisfies; they are exactly
what makes `urlsplitL ∘ urlunsplitL` the identity. -/
structure GoodSplit (s : UrlSplitR) : Prop where
  scheme_ok : s.scheme = [] ∨
    (validSchemePrefix s.scheme = true ∧ lowerL s.scheme = s.scheme)
  netloc_ok : ∀ c ∈ s.netloc, netlocDelim c = false
  path_q : '?' ∉ s.path
  path_f : '#' ∉ s.path
  query_f : '#' ∉ s.query
  netloc_path : s.netloc ≠ [] → s.path = [] ∨ s.path.head? = some '/'
  no_scheme : s.scheme = [] → s.netloc = [] → NoSchemePrefix s.path
  lead_ok : s.scheme = [] → s.netloc = [] → ∀ c t, s.path = c :: t →
    isC0OrSpace c = false
  clean_scheme : ∀ c ∈ s.scheme, isUnsafeUrlChar c = false
  clean_netloc : ∀ c ∈ s.netloc, isUnsafeUrlChar c = false
  clean_path : ∀ c ∈ s.path, isUnsafeUrlChar c = false
  clean_query : ∀ c ∈ s.query, isUnsafeUrlChar c = false
  clean_frag : ∀ c ∈ s.fragment, isUnsafeUrlChar c = false

theorem validSchemePrefix_head {s : List Char}
    (h : validSchemePrefix s = true) :
    ∃ c t, s = c :: t ∧ isAsciiAlpha c = true := by
  cases s with
  | nil => exact absurd h (by simp [validSchemePrefix])
  | cons c t =>
    exact ⟨c, t, rfl, (Bool.and_eq_true_iff.mp h).1⟩

theorem alpha_not_c0 {c : Char} (h : isAsciiAlpha c = true) :
    isC0OrSpace c = false := by
  unfold isAsciiAlpha at h
  simp only [Bool.or_eq_true, Bool.and_eq_true, decide_eq_true_eq] at h
  unfold isC0OrSpace
  rw [decide_eq_false_iff_not]
  omega

theorem optPre_nil (sep : Char) : optPre sep [] = [] := by
  unfold optPre
  simp

theorem optPre_ne {sep : Char} {l : List Char} (h : l ≠ []) :
    optPre sep l = sep :: l := by
  unfold optPre
  rw [if_pos h]

theorem mem_optPre {sep c : Char} {l : List Char} (h : c ∈ optPre sep l) :
    c = sep ∨ c ∈ l := by
  unfold optPre at h
  split at h
  · rcases List.mem_cons.mp h with he | hm
    · exact Or.inl he
    · exact Or.inr hm
  · simp at h

theorem filter_unsafe_id {l : List Char}
    (h : ∀ c ∈ l, isUnsafeUrlChar c = false) :
    l.filter (fun c => !isUnsafeUrlChar c) = l := by
  rw [List.filter_eq_self]
  intro c hc
  rw [h c hc]
  rfl

/-- The fragment and query splits undo the corresponding appends. -/
theorem split_fq (query frag : List Char) {path : List Char}
    (hq : '?' ∉ path) (hf : '#' ∉ path) (hqf : '#' ∉ query) :
    splitOpt '#' (path ++ optPre '?' query ++ optPre '#' frag) =
      (path ++ optPre '?' query, frag) ∧
    splitOpt '?' (path ++ optPre '?' query) = (path, query) := by
  have hnm : '#' ∉ path ++ optPre '?' query := by
    intro hm
    rcases List.mem_append.mp hm with hm | hm
    · exact hf hm
    · rcases mem_optPre hm with he | hm
      · exact absurd he (by decide)
      · exact hqf hm
  constructor
  · by_cases hfr : frag = []
    · subst hfr
      rw [optPre_nil, List.append_nil]
      exact splitOpt_of_not_mem hnm
    · rw [optPre_ne hfr]
      exact splitOpt_append _ hnm
  · by_cases hqr : query = []
    · subst hqr
      rw [optPre_nil, List.append_nil]
      exact splitOpt_of_not_mem hq
    · rw [optPre_ne hqr]
      exact splitOpt_append _ hq

/-- Composition of the five stages of `urlsplit`. -/
theorem urlsplitL_stages (url1 : List Char) {u scheme rest netloc rest2 pc
    frag path query : List Char}
    (h0 : (u.dropWhile isC0OrSpace).filter (fun c => !isUnsafeUrlChar c) =
      url1)
    (h1 : splitScheme url1 = (scheme, rest))
    (h2 : (if rest.take 2 = ['/', '/'] then splitNetloc (rest.drop 2)
      else ([], rest)) = (netloc, rest2))
    (h3 : splitOpt '#' rest2 = (pc, frag))
    (h4 : splitOpt '?' pc = (path, query)) :
    urlsplitL u = ⟨scheme, netloc, path, query, frag⟩ := by
  unfold urlsplitL
  dsimp only
  rw [h0, h1]
  dsimp only
  rw [h2]
  dsimp only
  rw [h3]
  dsimp only
  rw [h4]

theorem take_two_cons_cons (c1 c2 : Char) (l : List Char) :
    (c1 :: c2 :: l).take 2 = [c1, c2] := rfl

theorem drop_two_cons_cons (c1 c2 : Char) (l : List Char) :
    (c1 :: c2 :: l).drop 2 = l := rfl

/-- the central theorem: re-parsing an unparsed good split recovers it. -/
theorem urlsplit_recover {s : UrlSplitR} (h : GoodSplit s) :
    urlsplitL (urlunsplitL s) = s := by
  obtain ⟨scheme, netloc, path, query, fragment⟩ := s
  obtain ⟨hso, hno, hpq, hpf, hqf, hnp, hns, hlead, hcs, hcn, hcp, hcq,
    hcf⟩ := h
  dsimp only at hso hno hpq hpf hqf hnp hns hlead hcs hcn hcp hcq hcf
  -- the query and fragment stages, shared by both base branches
  have hfq := split_fq query fragment hpq hpf hqf
  -- characters of the optional parts are never unsafe
  have hcC : ∀ c ∈ optPre '?' query, isUnsafeUrlChar c = false := by
    intro c hm
    rcases mem_optPre hm with rfl | hm
    · decide
    · exact hcq c hm
  have hcD : ∀ c ∈ optPre '#' fragment, isUnsafeUrlChar c = false := by
    intro c hm
    rcases mem_optPre hm with rfl | hm
    · decide
    · exact hcf c hm
  -- heads of the optional parts
  have hheadCD : optPre '?' query ++ optPre '#' fragment = [] ∨
      ∃ t, optPre '?' query ++ optPre '#' fragment = '?' :: t ∨
        optPre '?' query ++ optPre '#' fragment = '#' :: t := by
    by_cases hq0 : query = []
    · by_cases hf0 : fragment = []
      · subst hq0; subst hf0; left; rfl
      · subst hq0
        rw [optPre_nil, optPre_ne hf0]
        exact Or.inr ⟨fragment, Or.inr rfl⟩
    · rw [optPre_ne hq0]
      exact Or.inr ⟨query ++ optPre '#' fragment, Or.inl (by simp)⟩
  by_cases hb1 : netloc ≠ [] ∨ (path ≠ [] ∧ path.take 2 = ['/', '/'])
  · -- the `//`-base branch
    have hens : ensureSlash path = path := by
      unfold ensureSlash
      rcases hb1 with hnl | ⟨hpne, ht2⟩
      · rcases hnp hnl with hp0 | hph
        · subst hp0
          simp

        · rw [if_neg (by simp [hph])]
      · cases path with
        | nil => exact absurd rfl hpne
        | cons p1 pt =>
          cases pt with
          | nil => simp at ht2
          | cons p2 pt' =>
            rw [take_two_cons_cons] at ht2
            simp only [List.cons.injEq, and_true] at ht2
            rw [if_neg (by simp [ht2.1])]
    have hshape : urlunsplitL ⟨scheme, netloc, path, query, fragment⟩ =
        (if scheme ≠ [] then scheme ++ [':'] else []) ++
          ('/' :: '/' :: (netloc ++ path)) ++ optPre '?' query ++
          optPre '#' fragment := by
      rw [unsplit_shape]
      dsimp only
      unfold baseOf
      dsimp only
      rw [if_pos hb1, hens]
    rw [hshape]
    -- facts about the rest after the `//`
    have hrest_head : path ++ optPre '?' query ++ optPre '#' fragment = [] ∨
        ∃ c t, path ++ optPre '?' query ++ optPre '#' fragment = c :: t ∧
          netlocDelim c = true := by
      by_cases hp0 : path = []
      · subst hp0
        simp only [List.nil_append]
        rcases hheadCD with h0 | ⟨t, ht | ht⟩
        · exact Or.inl h0
        · exact Or.inr ⟨'?', t, ht, by decide⟩
        · exact Or.inr ⟨'#', t, ht, by decide⟩
      · right
        have hph : path.head? = some '/' := by
          rcases hb1 with hnl | ⟨-, ht2⟩
          · rcases hnp hnl with hp0' | hph
            · exact absurd hp0' hp0
            · exact hph
          · cases path with
            | nil => exact absurd rfl hp0
            | cons p1 pt =>
              cases pt with
              | nil => simp at ht2
              | cons p2 pt' =>
                rw [take_two_cons_cons] at ht2
                simp only [List.cons.injEq, and_true] at ht2
                simp [ht2.1]
        cases path with
        | nil => exact absurd rfl hp0
        | cons p1 pt =>
          simp only [List.head?_cons, Option.some.injEq] at hph
          exact ⟨p1, pt ++ optPre '?' query ++ optPre '#' fragment,
            by simp, by rw [hph]; decide⟩
    have hnl2 : splitNetloc (netloc ++ (path ++ optPre '?' query ++
        optPre '#' fragment)) = (netloc,
          path ++ optPre '?' query ++ optPre '#' fragment) := by
      apply splitNetloc_recover hno
      rcases hrest_head with h0 | ⟨c, t, hct, hd⟩
      · exact Or.inl h0
      · exact Or.inr ⟨c, t, hct, hd⟩
    -- now the stage chain
    by_cases hsch : scheme = []
    · subst hsch
      apply urlsplitL_stages (
        '/' :: '/' :: (netloc ++ (path ++ optPre '?' query ++
          optPre '#' fragment)))
      · -- strip is the identity: leading `/` and no unsafe chars
        simp only [ne_eq, not_true_eq_false, if_false, List.nil_append]
        rw [dropWhile_eq_self_of_head (Or.inr ⟨'/',
          '/' :: (netloc ++ path) ++ optPre '?' query ++
            optPre '#' fragment, by simp, by decide⟩)]
        rw [filter_unsafe_id ?safe]
        case safe =>
          intro c hm
          simp only [List.append_assoc, List.cons_append, List.mem_cons,
            List.mem_append] at hm
          rcases hm with rfl | rfl | hm | hm | hm
          · decide
          · decide
          · exact hcn c hm
          · exact hcp c hm
          · rcases hm with hm | hm
            · exact hcC c hm
            · exact hcD c hm
        simp
      · -- no scheme is detected: the first character is `/`
        exact splitScheme_nsp (nsp_of_head _ (by decide))
      · -- `//` is seen, netloc is recovered
        rw [take_two_cons_cons, if_pos rfl, drop_two_cons_cons, hnl2]
      · exact hfq.1
      · exact hfq.2
    · -- scheme present
      obtain ⟨hvs, hlow⟩ := hso.resolve_left hsch
      obtain ⟨c0, t0, hsch_eq, halpha⟩ := validSchemePrefix_head hvs
      apply urlsplitL_stages (
        scheme ++ ':' :: ('/' :: '/' :: (netloc ++ (path ++
          optPre '?' query ++ optPre '#' fragment))))
      · rw [if_pos hsch]
        have harr : (scheme ++ [':']) ++
            ('/' :: '/' :: (netloc ++ ensureSlash path)) ++
            optPre '?' query ++ optPre '#' fragment =
            scheme ++ ':' :: ('/' :: '/' :: (netloc ++ path) ++
              optPre '?' query ++ optPre '#' fragment) := by
          rw [hens]
          simp
        have harr2 : (scheme ++ [':']) ++
            ('/' :: '/' :: (netloc ++ path)) ++ optPre '?' query ++
            optPre '#' fragment =
            scheme ++ ':' :: ('/' :: '/' :: (netloc ++ path) ++
              optPre '?' query ++ optPre '#' fragment) := by
          simp
        rw [harr2]
        rw [dropWhile_eq_self_of_head (Or.inr ⟨c0,
          t0 ++ ':' :: ('/' :: '/' :: (netloc ++ path) ++
            optPre '?' query ++ optPre '#' fragment),
          by rw [hsch_eq]; simp, alpha_not_c0 halpha⟩)]
        rw [filter_unsafe_id ?safe2]
        case safe2 =>
          intro c hm
          rcases List.mem_append.mp hm with hm | hm
          · exact hcs c hm
          · rcases List.mem_cons.mp hm with rfl | hm
            · decide
            · simp only [List.append_assoc, List.cons_append, List.mem_cons,
                List.mem_append] at hm
              rcases hm with rfl | rfl | hm | hm | hm
              · decide
              · decide
              · exact hcn c hm
              · exact hcp c hm
              · rcases hm with hm | hm
                · exact hcC c hm
                · exact hcD c hm
        simp
      · rw [splitScheme_valid _ hvs, hlow]
      · rw [take_two_cons_cons, if_pos rfl, drop_two_cons_cons, hnl2]
      · exact hfq.1
      · exact hfq.2
  · -- the plain-path base branch
    push_neg at hb1
    obtain ⟨hnl0, hnoslash⟩ := hb1
    have hshape : urlunsplitL ⟨scheme, netloc, path, query, fragment⟩ =
        (if scheme ≠ [] then scheme ++ [':'] else []) ++ path ++
          optPre '?' query ++ optPre '#' fragment := by
      rw [unsplit_shape]
      dsimp only
      unfold baseOf
      dsimp only
      rw [if_neg (show ¬(netloc ≠ [] ∨ (path ≠ [] ∧
        path.take 2 = ['/', '/'])) from fun hc => Or.elim hc
          (fun hne => hne hnl0) (fun hc2 => hnoslash hc2.1 hc2.2))]
    rw [hshape]
    -- the `//` test fails on `path ++ C ++ D`
    have hnotake : ¬ (path ++ optPre '?' query ++
        optPre '#' fragment).take 2 = ['/', '/'] := by
      intro ht
      cases path with
      | nil =>
        simp only [List.nil_append] at ht
        rcases hheadCD with h0 | ⟨t, hcd | hcd⟩
        · rw [h0] at ht; simp at ht
        · rw [hcd] at ht
          cases t <;> simp at ht
        · rw [hcd] at ht
          cases t <;> simp at ht
      | cons p1 pt =>
        cases pt with
        | nil =>
          simp only [List.cons_append, List.nil_append] at ht
          have : p1 = '/' ∧ (optPre '?' query ++
              optPre '#' fragment).take 1 = ['/'] := by
            cases hcd : optPre '?' query ++ optPre '#' fragment with
            | nil => rw [hcd] at ht; simp at ht
            | cons c t =>
              rw [hcd] at ht
              simp only [List.take_succ_cons, List.take_zero,
                List.cons.injEq] at ht
              exact ⟨ht.1, by simp [ht.2.1]⟩
          rcases hheadCD with h0 | ⟨t, hcd | hcd⟩
          · rw [h0] at this; simp at this
          · rw [hcd] at this
            simp at this
          · rw [hcd] at this
            simp at this
        | cons p2 pt' =>
          have hpt : (p1 :: p2 :: pt' ++ optPre '?' query ++
              optPre '#' fragment).take 2 = [p1, p2] := rfl
          rw [hpt] at ht
          simp only [List.cons.injEq, and_true] at ht
          exact hnoslash (by simp) (by
            rw [take_two_cons_cons, ht.1, ht.2])

    by_cases hsch : scheme = []
    · subst hsch
      apply urlsplitL_stages (
        path ++ optPre '?' query ++ optPre '#' fragment)
      · simp only [ne_eq, not_true_eq_false, if_false, List.nil_append]
        have hhead : path ++ optPre '?' query ++ optPre '#' fragment = [] ∨
            ∃ c t, path ++ optPre '?' query ++ optPre '#' fragment =
              c :: t ∧ isC0OrSpace c = false := by
          cases hp : path with
          | nil =>
            rcases hheadCD with h0 | ⟨t, hcd | hcd⟩
            · left; simp [h0]
            · right
              exact ⟨'?', t, by simp [hcd], by decide⟩
            · right
              exact ⟨'#', t, by simp [hcd], by decide⟩
          | cons p1 pt =>
            right
            refine ⟨p1, pt ++ optPre '?' query ++ optPre '#' fragment,
              by simp, ?_⟩
            exact hlead rfl hnl0 p1 pt hp
        rw [dropWhile_eq_self_of_head (by
          rcases hhead with h0 | ⟨c, t, hct, hc0⟩
          · exact Or.inl h0
          · exact Or.inr ⟨c, t, hct, hc0⟩)]
        apply filter_unsafe_id
        intro c hm
        simp only [List.append_assoc, List.mem_append] at hm
        rcases hm with hm | hm | hm
        · exact hcp c hm
        · exact hcC c hm
        · exact hcD c hm
      · -- no scheme is detected
        apply splitScheme_nsp
        have hnsp : NoSchemePrefix path := hns rfl hnl0
        by_cases hq0 : query = []
        · by_cases hf0 : fragment = []
          · subst hq0; subst hf0
            simpa [optPre_nil] using hnsp
          · subst hq0
            rw [optPre_nil, List.append_nil, optPre_ne hf0]
            exact NoSchemePrefix_append_delim _ hnsp (by decide) (by decide)
        · rw [optPre_ne hq0]
          have : path ++ '?' :: query ++ optPre '#' fragment =
              path ++ '?' :: (query ++ optPre '#' fragment) := by simp
          rw [this]
          exact NoSchemePrefix_append_delim _ hnsp (by decide) (by decide)
      · rw [if_neg hnotake, hnl0]
      · exact hfq.1
      · exact hfq.2
    · obtain ⟨hvs, hlow⟩ := hso.resolve_left hsch
      obtain ⟨c0, t0, hsch_eq, halpha⟩ := validSchemePrefix_head hvs
      apply urlsplitL_stages (
        scheme ++ ':' :: (path ++ optPre '?' query ++ optPre '#' fragment))
      · rw [if_pos hsch]
        have harr : (scheme ++ [':']) ++ path ++ optPre '?' query ++
            optPre '#' fragment =
            scheme ++ ':' :: (path ++ optPre '?' query ++
              optPre '#' fragment) := by
          simp
        rw [harr]
        rw [dropWhile_eq_self_of_head (Or.inr ⟨c0,
          t0 ++ ':' :: (path ++ optPre '?' query ++ optPre '#' fragment),
          by rw [hsch_eq]; simp, alpha_not_c0 halpha⟩)]
        apply filter_unsafe_id
        intro c hm
        rcases List.mem_append.mp hm with hm | hm
        · exact hcs c hm
        · rcases List.mem_cons.mp hm with rfl | hm
          · decide
          · simp only [List.append_assoc, List.mem_append] at hm
            rcases hm with hm | hm | hm
            · exact hcp c hm
            · exact hcC c hm
            · exact hcD c hm
      · rw [splitScheme_valid _ hvs, hlow]
      · rw [if_neg hnotake, hnl0]
      · exact hfq.1
      · exact hfq.2

/-! ### every parse satisfies the invariant -/

theorem char_ne_of_toNat_ne {c d : Char} (h : c.toNat ≠ d.toNat) :
    c ≠ d := fun he => h (he ▸ rfl)

theorem unsafe_false_of_toNat {c : Char} (h9 : c.toNat ≠ 9)
    (h13 : c.toNat ≠ 13) (h10 : c.toNat ≠ 10) :
    isUnsafeUrlChar c = false := by
  unfold isUnsafeUrlChar
  rw [Bool.or_eq_false_iff, Bool.or_eq_false_iff]
  refine ⟨⟨?_, ?_⟩, ?_⟩ <;> rw [decide_eq_false_iff_not]
  · exact char_ne_of_toNat_ne h9
  · exact char_ne_of_toNat_ne h13
  · exact char_ne_of_toNat_ne h10

theorem isUnsafeUrlChar_asciiLower (c : Char) :
    isUnsafeUrlChar (asciiLower c) = isUnsafeUrlChar c := by
  unfold asciiLower
  by_cases h : 65 ≤ c.toNat ∧ c.toNat ≤ 90
  · rw [if_pos (by simp [h.1, h.2])]
    have ht : (Char.ofNat (c.toNat + 32)).toNat = c.toNat + 32 :=
      toNat_ofNat_valid (by omega)
    rw [unsafe_false_of_toNat (c := Char.ofNat (c.toNat + 32))
        (by rw [ht]; omega) (by rw [ht]; omega) (by rw [ht]; omega),
      unsafe_false_of_toNat (by omega) (by omega) (by omega)]
  · rw [if_neg (by simpa using h)]

theorem clean_lowerL {l : List Char}
    (h : ∀ c ∈ l, isUnsafeUrlChar c = false) :
    ∀ c ∈ lowerL l, isUnsafeUrlChar c = false := by
  intro c hc
  rcases List.mem_map.mp hc with ⟨y, hy, rfl⟩
  rw [isUnsafeUrlChar_asciiLower]
  exact h y hy

theorem validSchemePrefix_lowerL {pre : List Char}
    (h : validSchemePrefix pre = true) :
    validSchemePrefix (lowerL pre) = true := by
  cases pre with
  | nil => simp [validSchemePrefix] at h
  | cons c t =>
    have h1 := (Bool.and_eq_true_iff.mp h).1
    have h2 := (Bool.and_eq_true_iff.mp h).2
    show validSchemePrefix (asciiLower c :: lowerL t) = true
    unfold validSchemePrefix
    rw [Bool.and_eq_true_iff]
    constructor
    · exact isAsciiAlpha_asciiLower h1
    · rw [List.all_eq_true] at h2 ⊢
      intro x hx
      rcases List.mem_cons.mp hx with rfl | hx
      · exact isSchemeChar_asciiLower (h2 c (List.mem_cons_self _ _))
      · rcases List.mem_map.mp hx with ⟨y, hy, rfl⟩
        exact isSchemeChar_asciiLower (h2 y (List.mem_cons_of_mem _ hy))

/-- Inversion for `splitScheme`. -/
theorem splitScheme_eq {l scheme rest : List Char}
    (h : splitScheme l = (scheme, rest)) :
    (scheme = [] ∧ rest = l ∧ NoSchemePrefix l) ∨
    (∃ pre, validSchemePrefix pre = true ∧ scheme = lowerL pre ∧
      l = pre ++ ':' :: rest) := by
  unfold splitScheme at h
  rcases hsf : splitFirst ':' l with _ | ⟨pre, post⟩ <;> rw [hsf] at h
  · left
    rw [Prod.ext_iff] at h
    obtain ⟨h1, h2⟩ := h
    refine ⟨h1.symm, h2.symm, ?_⟩
    intro pre post he _
    exact absurd (show ':' ∈ l by
      rw [he]; exact List.mem_append_right _ (List.mem_cons_self _ _))
      (splitFirst_eq_none hsf)
  · obtain ⟨hl, hnm⟩ := splitFirst_eq_some hsf
    dsimp only at h
    by_cases hv : validSchemePrefix pre = true
    · rw [if_pos hv] at h
      rw [Prod.ext_iff] at h
      obtain ⟨h1, h2⟩ := h
      dsimp only at h1 h2
      right
      exact ⟨pre, hv, h1.symm, by rw [hl, h2]⟩
    · rw [if_neg hv] at h
      rw [Prod.ext_iff] at h
      obtain ⟨h1, h2⟩ := h
      dsimp only at h1 h2
      left
      refine ⟨h1.symm, h2.symm, ?_⟩
      intro pre' post' he' hnm'
      obtain ⟨he2, -⟩ := first_split_unique (hl.symm.trans he') hnm hnm'
      rw [← he2]
      exact Bool.eq_false_iff.mpr hv

theorem splitOpt_fst_pre {sep : Char} {l a b : List Char}
    (h : splitOpt sep l = (a, b)) : a <+: l := by
  rcases splitOpt_eq h with ⟨hl, -⟩ | ⟨rfl, -, -⟩
  · exact ⟨sep :: b, hl.symm⟩
  · exact List.prefix_refl _

theorem splitOpt_snd_subset {sep : Char} {l a b : List Char}
    (h : splitOpt sep l = (a, b)) : ∀ c ∈ b, c ∈ l := by
  rcases splitOpt_eq h with ⟨hl, -⟩ | ⟨-, rfl, -⟩
  · intro c hc
    rw [hl]
    exact List.mem_append_right _ (List.mem_cons_of_mem _ hc)
  · intro c hc
    simp at hc

theorem splitOpt_fst_not_mem {sep : Char} {l a b : List Char}
    (h : splitOpt sep l = (a, b)) : sep ∉ a := by
  rcases splitOpt_eq h with ⟨-, hnm⟩ | ⟨rfl, -, hnm⟩ <;> exact hnm

/-- A nonempty prefix has the same head. -/
theorem IsPrefix.head_eq {a l : List Char} {c : Char} {t : List Char}
    (hp : a <+: l) (ha : a = c :: t) : ∃ t', l = c :: t' := by
  obtain ⟨r, rfl⟩ := hp
  subst ha
  exact ⟨t ++ r, rfl⟩

theorem good_urlsplit (url : List Char) : GoodSplit (urlsplitL url) := by
  unfold urlsplitL
  dsimp only
  -- facts about the stripped URL
  have hclean1 : ∀ c ∈ (url.dropWhile isC0OrSpace).filter
      (fun c => !isUnsafeUrlChar c), isUnsafeUrlChar c = false := by
    intro c hc
    have := List.of_mem_filter hc
    simpa using this
  have hlead1 : ∀ c t, (url.dropWhile isC0OrSpace).filter
      (fun c => !isUnsafeUrlChar c) = c :: t → isC0OrSpace c = false := by
    intro c t he
    rcases hdw : url.dropWhile isC0OrSpace with _ | ⟨d, r⟩
    · rw [hdw] at he
      simp at he
    · have hd : isC0OrSpace d = false := dropWhile_head_false hdw
      have hdu : isUnsafeUrlChar d = false := by
        apply unsafe_false_of_toNat <;>
          (intro hn
           unfold isC0OrSpace at hd
           rw [decide_eq_false_iff_not] at hd
           omega)
      rw [hdw] at he
      rw [List.filter_cons, if_pos (by simp [hdu])] at he
      obtain ⟨rfl, -⟩ := List.cons.injEq .. ▸ he
      exact hd
  set url1 := (url.dropWhile isC0OrSpace).filter
    (fun c => !isUnsafeUrlChar c) with hurl1
  clear_value url1
  rcases hsp : splitScheme url1 with ⟨scheme, rest⟩
  dsimp only
  -- scheme facts
  have hschemefacts := splitScheme_eq hsp
  have hrest_sub : ∀ c ∈ rest, c ∈ url1 := by
    rcases hschemefacts with ⟨-, rfl, -⟩ | ⟨pre, -, -, hl⟩
    · exact fun c hc => hc
    · intro c hc
      rw [hl]
      exact List.mem_append_right _ (List.mem_cons_of_mem _ hc)
  by_cases h2 : rest.take 2 = ['/', '/']
  · -- netloc branch
    rw [if_pos h2]
    rcases hfr : splitOpt '#' ((rest.drop 2).dropWhile
      (fun c => !netlocDelim c)) with ⟨pc, frag⟩
    rcases hpq : splitOpt '?' pc with ⟨path, query⟩
    unfold splitNetloc
    dsimp only
    rw [hfr]
    dsimp only
    rw [hpq]
    dsimp only
    -- memberships
    have hrest2_sub : ∀ c ∈ (rest.drop 2).dropWhile
        (fun c => !netlocDelim c), c ∈ url1 := fun c hc =>
      hrest_sub c (List.mem_of_mem_drop
        (((rest.drop 2).dropWhile_sublist _).mem hc))
    have hpc_sub : ∀ c ∈ pc, c ∈ url1 := fun c hc =>
      hrest2_sub c ((splitOpt_fst_pre hfr).sublist.mem hc)
    have hpath_pc : path <+: pc := splitOpt_fst_pre hpq
    have hpath_sub : ∀ c ∈ path, c ∈ url1 := fun c hc =>
      hpc_sub c (hpath_pc.sublist.mem hc)
    have hnotq : '?' ∉ path := splitOpt_fst_not_mem hpq
    have hnotf_pc : '#' ∉ pc := splitOpt_fst_not_mem hfr
    have hnotf : '#' ∉ path := fun hm => hnotf_pc (hpath_pc.sublist.mem hm)
    have hhead_path : ∀ c t, path = c :: t → c = '/' := by
      intro c t hct
      obtain ⟨t1, hpc_eq⟩ := IsPrefix.head_eq hpath_pc hct
      obtain ⟨t2, hrest2_eq⟩ :=
        IsPrefix.head_eq (splitOpt_fst_pre hfr) hpc_eq
      have hdelim : netlocDelim c = true := by
        have := dropWhile_head_false hrest2_eq
        simpa using this
      unfold netlocDelim at hdelim
      simp only [Bool.or_eq_true, decide_eq_true_eq] at hdelim
      rcases hdelim with (hc | hc) | hc
      · exact hc
      · exact absurd (show ('?' : Char) ∈ path by
          rw [hct, hc]; exact List.mem_cons_self _ _) hnotq
      · exact absurd (show ('#' : Char) ∈ path by
          rw [hct, hc]; exact List.mem_cons_self _ _) hnotf
    refine ⟨?_, ?_, ?_, ?_, ?_, ?_, ?_, ?_, ?_, ?_, ?_, ?_, ?_⟩
    · -- scheme_ok
      rcases hschemefacts with ⟨rfl, -, -⟩ | ⟨pre, hv, rfl, -⟩
      · exact Or.inl rfl
      · exact Or.inr ⟨validSchemePrefix_lowerL hv, lowerL_idem pre⟩
    · -- netloc_ok
      intro c hc
      have := mem_takeWhile_pred hc
      simpa using this
    · exact hnotq
    · exact hnotf
    · -- query_f
      intro hm
      exact hnotf_pc ((splitOpt_snd_subset hpq) '#' hm)
    · -- netloc_path
      intro _
      cases hp : path with
      | nil => exact Or.inl rfl
      | cons c t =>
        right
        rw [hhead_path c t hp]
        rfl
    · -- no_scheme
      intro hs0 hn0
      cases hp : path with
      | nil => exact hp ▸ NoSchemePrefix_nil
      | cons c t =>
        have hc := hhead_path c t hp
        subst hc
        exact nsp_of_head _ (by decide)
    · -- lead_ok
      intro hs0 hn0 c t hct
      rw [hhead_path c t hct]
      decide
    · -- clean_scheme
      rcases hschemefacts with ⟨rfl, -, -⟩ | ⟨pre, -, rfl, hl⟩
      · intro c hc
        simp at hc
      · refine clean_lowerL ?_
        intro c hc
        apply hclean1
        rw [hl]
        exact List.mem_append_left _ hc
    · -- clean_netloc
      intro c hc
      refine hclean1 c ?_
      exact hrest_sub c (List.mem_of_mem_drop
        (((rest.drop 2).takeWhile_sublist _).mem hc))
    · -- clean_path
      intro c hc
      exact hclean1 c (hpath_sub c hc)
    · -- clean_query
      intro c hc
      exact hclean1 c (hpc_sub c ((splitOpt_snd_subset hpq) c hc))
    · -- clean_frag
      intro c hc
      exact hclean1 c (hrest2_sub c ((splitOpt_snd_subset hfr) c hc))
  · -- no netloc
    rw [if_neg h2]
    rcases hfr : splitOpt '#' rest with ⟨pc, frag⟩
    rcases hpq : splitOpt '?' pc with ⟨path, query⟩
    have hpc_sub : ∀ c ∈ pc, c ∈ url1 := fun c hc =>
      hrest_sub c ((splitOpt_fst_pre hfr).sublist.mem hc)
    have hpath_pc : path <+: pc := splitOpt_fst_pre hpq
    have hpath_rest : path <+: rest :=
      hpath_pc.trans (splitOpt_fst_pre hfr)
    have hpath_sub : ∀ c ∈ path, c ∈ url1 := fun c hc =>
      hpc_sub c (hpath_pc.sublist.mem hc)
    have hnotq : '?' ∉ path := splitOpt_fst_not_mem hpq
    have hnotf_pc : '#' ∉ pc := splitOpt_fst_not_mem hfr
    have hnotf : '#' ∉ path := fun hm => hnotf_pc (hpath_pc.sublist.mem hm)
    refine ⟨?_, ?_, ?_, ?_, ?_, ?_, ?_, ?_, ?_, ?_, ?_, ?_, ?_⟩
    · -- scheme_ok
      rcases hschemefacts with ⟨rfl, -, -⟩ | ⟨pre, hv, rfl, -⟩
      · exact Or.inl rfl
      · exact Or.inr ⟨validSchemePrefix_lowerL hv, lowerL_idem pre⟩
    · -- netloc_ok
      intro c hc
      simp at hc
    · exact hnotq
    · exact hnotf
    · -- query_f
      intro hm
      exact hnotf_pc ((splitOpt_snd_subset hpq) '#' hm)
    · -- netloc_path
      intro hne
      exact absurd rfl hne
    · -- no_scheme
      intro hs0 _
      rcases hschemefacts with ⟨-, rfl, hnsp⟩ | ⟨pre, hv, hs, -⟩
      · exact NoSchemePrefix_prefix hnsp hpath_rest
      · have hs0' : scheme = [] := hs0
        rw [hs0'] at hs
        obtain ⟨c0, t0, rfl, -⟩ := validSchemePrefix_head hv
        simp [lowerL] at hs
    · -- lead_ok
      intro hs0 _ c t hct
      rcases hschemefacts with ⟨-, rfl, -⟩ | ⟨pre, hv, hs, -⟩
      · obtain ⟨t', he⟩ := IsPrefix.head_eq hpath_rest hct
        exact hlead1 c t' he
      · have hs0' : scheme = [] := hs0
        rw [hs0'] at hs
        obtain ⟨c0, t0, rfl, -⟩ := validSchemePrefix_head hv
        simp [lowerL] at hs
    · -- clean_scheme
      rcases hschemefacts with ⟨rfl, -, -⟩ | ⟨pre, -, rfl, hl⟩
      · intro c hc
        simp at hc
      · refine clean_lowerL ?_
        intro c hc
        apply hclean1
        rw [hl]
        exact List.mem_append_left _ hc
    · -- clean_netloc
      intro c hc
      simp at hc
    · -- clean_path
      intro c hc
      exact hclean1 c (hpath_sub c hc)
    · -- clean_query
      intro c hc
      exact hclean1 c (hpc_sub c ((splitOpt_snd_subset hpq) c hc))
    · -- clean_frag
      intro c hc
      exact hclean1 c (hrest_sub c ((splitOpt_snd_subset hfr) c hc))

/-! ### the parsed-level invariant and round trip -/

/-- Forget the path/params split. -/
def splitOfParsed (p : UrlParsedR) : UrlSplitR :=
  ⟨p.scheme, p.netloc, pathWithParams p.path p.params, p.query, p.fragment⟩

structure GoodParsed (p : UrlParsedR) : Prop where
  split_good : GoodSplit (splitOfParsed p)
  params_stable :
    (usesParams p.scheme && elemChar ';' (pathWithParams p.path p.params))
      = true →
    splitParams (pathWithParams p.path p.params) = (p.path, p.params)
  params_empty :
    (usesParams p.scheme && elemChar ';' (pathWithParams p.path p.params))
      = false → p.params = []

theorem pathWithParams_nil (path : List Char) :
    pathWithParams path [] = path := by
  unfold pathWithParams
  simp

/-- Transfer of the split invariant along a prefix of the path. -/
theorem GoodSplit_path_prefix {s : UrlSplitR} {path2 : List Char}
    (h : GoodSplit s) (hp : path2 <+: s.path) :
    GoodSplit ⟨s.scheme, s.netloc, path2, s.query, s.fragment⟩ := by
  obtain ⟨hso, hno, hpq, hpf, hqf, hnp, hns, hlead, hcs, hcn, hcp, hcq,
    hcf⟩ := h
  refine ⟨hso, hno, ?_, ?_, hqf, ?_, ?_, ?_, hcs, hcn, ?_, hcq, hcf⟩
  · exact fun hm => hpq (hp.sublist.mem hm)
  · exact fun hm => hpf (hp.sublist.mem hm)
  · intro hne
    rcases hnp hne with hp0 | hph
    · left
      rw [hp0] at hp
      exact List.prefix_nil.mp hp
    · cases hp2 : path2 with
      | nil => exact Or.inl rfl
      | cons c t =>
        right
        obtain ⟨t', he⟩ := IsPrefix.head_eq hp hp2
        rw [he] at hph
        simpa using hph
  · intro hs0 hn0
    exact NoSchemePrefix_prefix (hns hs0 hn0) hp
  · intro hs0 hn0 c t hct
    obtain ⟨t', he⟩ := IsPrefix.head_eq hp hct
    exact hlead hs0 hn0 c t' he
  · intro c hc
    exact hcp c (hp.sublist.mem hc)

theorem good_urlparse (url : List Char) : GoodParsed (urlparseL url) := by
  unfold urlparseL
  have hgs := good_urlsplit url
  by_cases hc : (usesParams (urlsplitL url).scheme &&
      elemChar ';' (urlsplitL url).path) = true
  · rw [if_pos hc]
    rcases hsp : splitParams (urlsplitL url).path with ⟨a, b⟩
    dsimp only
    have hprefix : pathWithParams a b <+: (urlsplitL url).path := by
      have := splitParams_prefix (urlsplitL url).path
      rw [hsp] at this
      exact this
    have hstab : splitParams (pathWithParams a b) = (a, b) := by
      have := splitParams_stable (urlsplitL url).path
      rw [hsp] at this
      exact this
    constructor
    · -- split invariant transfers along the prefix
      exact GoodSplit_path_prefix hgs hprefix
    · intro _
      exact hstab
    · -- if the params survive, the reparse condition cannot be false
      intro hcond
      dsimp only [splitOfParsed] at hcond ⊢
      by_cases hb : b = []
      · exact hb
      · exfalso
        rw [Bool.and_eq_false_iff] at hcond
        rcases hcond with hu | he
        · rw [Bool.and_eq_true_iff] at hc
          exact absurd hc.1 (by simp [hu])
        · have : (';' : Char) ∈ pathWithParams a b := by
            rw [pathWithParams, if_pos hb]
            exact List.mem_append_right _ (List.mem_cons_self _ _)
          rw [← elemChar_iff] at this
          rw [this] at he
          exact Bool.noConfusion he
  · rw [if_neg hc]
    constructor
    · -- with no split the forgetful map is the identity
      show GoodSplit ⟨(urlsplitL url).scheme, (urlsplitL url).netloc,
        pathWithParams (urlsplitL url).path [], (urlsplitL url).query,
        (urlsplitL url).fragment⟩
      rw [pathWithParams_nil]
      exact hgs
    · intro hcond
      dsimp only at hcond
      rw [pathWithParams_nil] at hcond
      exact absurd hcond hc
    · intro _
      rfl

/-- Unparsing then parsing recovers every good parsed URL. -/
theorem urlparse_recover {p : UrlParsedR} (h : GoodParsed p) :
    urlparseL (urlunparseL p) = p := by
  have hsplit : urlsplitL (urlunparseL p) = splitOfParsed p :=
    urlsplit_recover h.split_good
  unfold urlparseL
  rw [hsplit]
  show (if (usesParams p.scheme &&
      elemChar ';' (pathWithParams p.path p.params)) = true then _ else _)
    = p
  by_cases hc : (usesParams p.scheme &&
      elemChar ';' (pathWithParams p.path p.params)) = true
  · rw [if_pos hc]
    show (⟨p.scheme, p.netloc,
      (splitParams (pathWithParams p.path p.params)).1,
      (splitParams (pathWithParams p.path p.params)).2,
      p.query, p.fragment⟩ : UrlParsedR) = p
    rw [h.params_stable hc]
  · rw [if_neg hc]
    show (⟨p.scheme, p.netloc, pathWithParams p.path p.params, [],
      p.query, p.fragment⟩ : UrlParsedR) = p
    have hpp : p.params = [] := h.params_empty (Bool.eq_false_iff.mpr hc)
    rw [hpp, pathWithParams_nil]
    show (⟨p.scheme, p.netloc, p.path, [], p.query, p.fragment⟩ :
      UrlParsedR) = p
    rw [← hpp]

/-! ### the cleaned query is a safe replacement, and cleaning is
idempotent -/

theorem mem_joinSep {sep : Char} {parts : List (List Char)} {c : Char}
    (h : c ∈ joinSep sep parts) : c = sep ∨ ∃ x ∈ parts, c ∈ x := by
  induction parts with
  | nil => simp [joinSep] at h
  | cons x t ih =>
    cases t with
    | nil =>
      right
      exact ⟨x, by simp, h⟩
    | cons y t' =>
      rw [show joinSep sep (x :: y :: t') = x ++ sep :: joinSep sep (y :: t')
        from rfl] at h
      rcases List.mem_append.mp h with hm | hm
      · exact Or.inr ⟨x, by simp, hm⟩
      · rcases List.mem_cons.mp hm with rfl | hm
        · exact Or.inl rfl
        · rcases ih hm with he | ⟨z, hz, hcz⟩
          · exact Or.inl he
          · exact Or.inr ⟨z, List.mem_cons_of_mem _ hz, hcz⟩

theorem mem_urlencode {l : List (List Char × List (List Char))} {c : Char}
    (h : c ∈ urlencodeDoseq l) :
    c = '&' ∨ c = '=' ∨ ∃ s, c ∈ quotePlusL s := by
  unfold urlencodeDoseq at h
  rcases mem_joinSep h with rfl | ⟨x, hx, hcx⟩
  · exact Or.inl rfl
  · rcases List.mem_flatten.mp hx with ⟨g, hg, hxg⟩
    rcases List.mem_map.mp hg with ⟨kv, -, rfl⟩
    rcases List.mem_map.mp hxg with ⟨v, -, rfl⟩
    unfold encodePair at hcx
    rcases List.mem_append.mp hcx with hm | hm
    · exact Or.inr (Or.inr ⟨kv.1, hm⟩)
    · rcases List.mem_cons.mp hm with rfl | hm
      · exact Or.inr (Or.inl rfl)
      · exact Or.inr (Or.inr ⟨v, hm⟩)

theorem quotePlus_not_unsafe {s : List Char} {c : Char}
    (h : c ∈ quotePlusL s) : isUnsafeUrlChar c = false := by
  rcases mem_quotePlusL h with rfl | rfl | hh | hh | hh
  · decide
  · decide
  · unfold isHexDigit isAsciiDigit at hh
    simp only [Bool.or_eq_true, Bool.and_eq_true, decide_eq_true_eq] at hh
    exact unsafe_false_of_toNat (by omega) (by omega) (by omega)
  · unfold isAlwaysSafe isAsciiAlpha isAsciiDigit at hh
    simp only [Bool.or_eq_true, Bool.and_eq_true, decide_eq_true_eq] at hh
    exact unsafe_false_of_toNat (by omega) (by omega) (by omega)
  · exact unsafe_false_of_toNat (by omega) (by omega) (by omega)

theorem urlencode_not_sharp (l : List (List Char × List (List Char))) :
    '#' ∉ urlencodeDoseq l := by
  intro h
  rcases mem_urlencode h with he | he | ⟨s, hm⟩
  · exact absurd he (by decide)
  · exact absurd he (by decide)
  · exact sharp_not_mem_quotePlus s hm

theorem urlencode_not_unsafe {l : List (List Char × List (List Char))}
    {c : Char} (h : c ∈ urlencodeDoseq l) : isUnsafeUrlChar c = false := by
  rcases mem_urlencode h with rfl | rfl | ⟨s, hm⟩
  · decide
  · decide
  · exact quotePlus_not_unsafe hm

/-- `GoodParsed` survives replacing the query by a `#`-free, unsafe-free
query. -/
theorem GoodParsed_set_query {p : UrlParsedR} {q : List Char}
    (h : GoodParsed p) (hq : '#' ∉ q)
    (hqc : ∀ c ∈ q, isUnsafeUrlChar c = false) :
    GoodParsed { p with query := q } := by
  obtain ⟨hsg, hst, hpe⟩ := h
  obtain ⟨hso, hno, hpq, hpf, hqf, hnp, hns, hlead, hcs, hcn, hcp, hcq,
    hcf⟩ := hsg
  exact ⟨⟨hso, hno, hpq, hpf, hq, hnp, hns, hlead, hcs, hcn, hcp, hqc,
    hcf⟩, hst, hpe⟩

/-- The filter of a well-formed dict is well-formed. -/
theorem ParamsWF_filter {l : List (List Char × List (List Char))}
    (h : ParamsWF l) (f : List Char × List (List Char) → Bool) :
    ParamsWF (l.filter f) := by
  constructor
  · have : List.Sublist (keysOf (l.filter f)) (keysOf l) :=
      (List.filter_sublist l).map Prod.fst
    exact h.1.sublist this
  · intro kv hkv
    exact h.2 kv (List.mem_of_mem_filter hkv)

/-- The cleaned parameter dict of `_clean_url` (its `cleaned_params`
loop: keep exactly the pairs whose key passes `keepKey`). -/
def cleanedParams (url : List Char) : List (List Char × List (List Char)) :=
  (parseQs (urlparseL url).query).filter (fun kv => keepKey kv.1)

/-- The query string `_clean_url` rebuilds (`urlencode(cleaned_params,
doseq=True)` when any parameter survives, else the empty string). -/
def cleanedQuery (url : List Char) : List Char :=
  if cleanedParams url ≠ [] then urlencodeDoseq (cleanedParams url) else []

theorem cleanUrlL_eq (url : List Char) :
    cleanUrlL url =
      urlunparseL { urlparseL url with query := cleanedQuery url } := rfl

theorem cleanedQuery_not_sharp (url : List Char) :
    '#' ∉ cleanedQuery url := by
  unfold cleanedQuery
  split
  · exact urlencode_not_sharp _
  · simp

theorem cleanedQuery_not_unsafe {url : List Char} {c : Char}
    (h : c ∈ cleanedQuery url) : isUnsafeUrlChar c = false := by
  unfold cleanedQuery at h
  split at h
  · exact urlencode_not_unsafe h
  · simp at h

/-- Re-parsing the output of `_clean_url` recovers the parsed input with
only the query replaced by the rebuilt query. -/
theorem urlparse_cleanUrlL (url : List Char) :
    urlparseL (cleanUrlL url) =
      { urlparseL url with query := cleanedQuery url } := by
  rw [cleanUrlL_eq]
  exact urlparse_recover (GoodParsed_set_query (good_urlparse url)
    (cleanedQuery_not_sharp url) (fun c hc => cleanedQuery_not_unsafe hc))

/-- The rebuilt query re-parses to exactly the surviving parameters. -/
theorem parseQs_cleanedQuery (url : List Char) :
    parseQs (cleanedQuery url) = cleanedParams url := by
  unfold cleanedQuery
  by_cases hc : cleanedParams url = []
  · rw [if_neg (not_not_intro hc), hc]
    decide
  · rw [if_pos hc]
    exact parseQs_urlencode (ParamsWF_filter (ParamsWF_parseQs _) _)

/-- The central positive half of the idempotence claim: cleaning is
idempotent on every URL. -/
theorem cleanUrlL_idem (url : List Char) :
    cleanUrlL (cleanUrlL url) = cleanUrlL url := by
  have h2 : cleanedParams (cleanUrlL url) = cleanedParams url := by
    unfold cleanedParams
    rw [urlparse_cleanUrlL]
    show (parseQs (cleanedQuery url)).filter _ = _
    rw [parseQs_cleanedQuery]
    unfold cleanedParams
    rw [List.filter_filter]
    apply List.filter_congr
    intro kv _
    rw [Bool.and_self]
  have h3 : cleanedQuery (cleanUrlL url) = cleanedQuery url := by
    unfold cleanedQuery
    rw [h2]
  rw [cleanUrlL_eq (cleanUrlL url), urlparse_cleanUrlL, h3]
  rfl

/-- Every query key surviving in the output of `_clean_url` passes the
keep-condition. -/
theorem cleanUrlL_keys {url k : List Char}
    (h : k ∈ keysOf (parseQs (urlparseL (cleanUrlL url)).query)) :
    keepKey k = true := by
  rw [urlparse_cleanUrlL] at h
  have h' : k ∈ keysOf (parseQs (cleanedQuery url)) := h
  rw [parseQs_cleanedQuery] at h'
  unfold cleanedParams keysOf at h'
  rcases List.mem_map.mp h' with ⟨kv, hkv, rfl⟩
  have hp := List.of_mem_filter hkv
  exact hp

/-! ## `LinkResolver._is_direct_product_url`

The eleven `direct_patterns` are regular expressions used through
`re.search(pattern, url, re.IGNORECASE)`.  Each is of one of two shapes:

* `amazon\.(ca|com)/.*/(dp|gp/product)/[A-Z0-9]{10}` and
* `LIT/.*MID/.*` (a literal merchant prefix, a gap, a literal middle,
  and a trailing `.*` that always matches).

`re.search` looks for a match starting at any position; `.` matches any
character except a newline; `re.IGNORECASE` is modelled by lowercasing
the subject (the pattern literals are already lowercase, and the
character class `[A-Z0-9]` becomes `[a-z0-9]` on the lowered text). -/

/-- Match a literal, then continue with `p` on the remainder. -/
def litThen (lit : List Char) (p : List Char → Bool) (l : List Char) :
    Bool :=
  lit.isPrefixOf l && p (l.drop lit.length)

/-- `.*P`: skip a (possibly empty) gap of non-newline characters, then
match `p`. -/
def gapThen (p : List Char → Bool) : List Char → Bool
  | [] => p []
  | c :: t => p (c :: t) || ((c != '\n') && gapThen p t)

/-- `re.search`: the pattern may start at any position of the subject. -/
def searchHere (p : List Char → Bool) : List Char → Bool
  | [] => p []
  | c :: t => p (c :: t) || searchHere p t

/-- `[A-Z0-9]\x7b10\x7d` under `IGNORECASE` on the lowered subject: ten
consecutive ASCII alphanumeric characters. -/
def tenAlnum (l : List Char) : Bool :=
  decide ((l.take 10).length = 10) &&
    (l.take 10).all (fun c => isAsciiAlpha c || isAsciiDigit c)

/-- `.*/(dp|gp/product)/[A-Z0-9]\x7b10\x7d`, the part of the Amazon
pattern after `amazon\.(ca|com)/`. -/
def amazonTail (l : List Char) : Bool :=
  gapThen (fun r => litThen "/dp/".data tenAlnum r ||
    litThen "/gp/product/".data tenAlnum r) l

/-- `amazon\.(ca|com)/.*/(dp|gp/product)/[A-Z0-9]\x7b10\x7d` searched
anywhere (the alternation is distributed over the two TLDs). -/
def amazonPattern (l : List Char) : Bool :=
  searchHere (fun r => litThen "amazon.ca/".data amazonTail r ||
    litThen "amazon.com/".data amazonTail r) l

/-- `LIT/.*MID/.*` searched anywhere. -/
def merchantPattern (pre mid l : List Char) : Bool :=
  searchHere (litThen pre (gapThen (fun r => mid.isPrefixOf r))) l

/-- The ten non-Amazon `direct_patterns`, in source order, as
(literal-prefix, literal-middle) pairs. -/
def directPatterns : List (List Char × List Char) := [
  ("walmart.ca/".data, "ip/".data),
  ("bestbuy.ca/".data, "product/".data),
  ("canadiantire.ca/".data, "product/".data),
  ("staples.ca/".data, "product/".data),
  ("thebay.com/".data, "product/".data),
  ("sportchek.ca/".data, "product/".data),
  ("marks.com/".data, "product/".data),
  ("well.ca/".data, "product/".data),
  ("chapters.indigo.ca/".data, "product/".data),
  ("costco.ca/".data, "product/".data)]

/-- `LinkResolver._is_direct_product_url`. -/
def isDirectProductUrl (url : List Char) : Bool :=
  amazonPattern (lowerL url) ||
    directPatterns.any (fun pm => merchantPattern pm.1 pm.2 (lowerL url))

/-! ## `LinkResolver.resolve_url`

The network is the oracle `net : List Char → Option (List Char)`:
`net u = some f` models a HEAD request for `u` whose redirect chain ends
at the final response URL `f`; `net u = none` models any exception
raised by the request (connection error, timeout, ...).  The embedded
`_is_direct_product_url` and `_clean_url` are total, so the only live
source of the `except` branch is the request itself. -/

/-- `resolve_url`, returning the result together with whether an HTTP
HEAD request was issued. -/
def resolveUrlT (net : List Char → Option (List Char)) (url : List Char) :
    List Char × Bool :=
  if isDirectProductUrl url then (cleanUrlL url, false)
  else
    match net url with
    | some finalUrl => (cleanUrlL finalUrl, true)
    | none => (url, true)

/-- `LinkResolver.resolve_url`. -/
def resolveUrl (net : List Char → Option (List Char))
    (url : List Char) : List Char :=
  (resolveUrlT net url).1

/-- Python's substring test `needle in hay` for strings: `needle` is a
prefix of some suffix of `hay`. -/
def strIn (needle hay : List Char) : Bool :=
  searchHere (fun r => needle.isPrefixOf r) hay

/-! ## `affiliate_config.py`

Tag values are `os.environ.get(var, default)`; the process environment
is the oracle `env : String → Option String`. -/

/-- `os.environ.get(var, default)`. -/
def envGet (env : String → Option String) (var d : String) : String :=
  (env var).getD d

/-- `AFFILIATE_TAGS`: the dict of merchant domain → affiliate tag.
Python dicts iterate in insertion order, so the table is the ordered
list of pairs as written in the source. -/
def AFFILIATE_TAGS (env : String → Option String) :
    List (String × String) := [
  ("amazon.ca", envGet env "AMAZON_CA_TAG" "yourtag-20"),
  ("amazon.com", envGet env "AMAZON_COM_TAG" "yourtag-20"),
  ("walmart.ca", envGet env "WALMART_CA_TAG" "your-walmart-id"),
  ("bestbuy.ca", envGet env "BESTBUY_CA_TAG" "your-bestbuy-id"),
  ("canadiantire.ca", envGet env "CANADIANTIRE_CA_TAG" "your-ct-id"),
  ("staples.ca", envGet env "STAPLES_CA_TAG" "your-staples-id"),
  ("thebay.com", envGet env "THEBAY_COM_TAG" "your-bay-id"),
  ("sportchek.ca", envGet env "SPORTCHEK_CA_TAG" "your-sportchek-id"),
  ("marks.com", envGet env "MARKS_COM_TAG" "your-marks-id"),
  ("well.ca", envGet env "WELL_CA_TAG" "your-well-id"),
  ("chapters.indigo.ca", envGet env "INDIGO_CA_TAG" "your-indigo-id"),
  ("costco.ca", envGet env "COSTCO_CA_TAG" "your-costco-id"),
  ("gap.ca", envGet env "GAP_CA_TAG" "your-gap-id"),
  ("oldnavy.ca", envGet env "OLDNAVY_CA_TAG" "your-oldnavy-id"),
  ("bananarepublic.ca", envGet env "BANANAREPUBLIC_CA_TAG" "your-br-id"),
  ("lululemon.com", envGet env "LULULEMON_COM_TAG" "your-lulu-id"),
  ("nike.com", envGet env "NIKE_COM_TAG" "your-nike-id"),
  ("adidas.ca", envGet env "ADIDAS_CA_TAG" "your-adidas-id"),
  ("newegg.ca", envGet env "NEWEGG_CA_TAG" "your-newegg-id"),
  ("memoryexpress.com", envGet env "MEMORYEXPRESS_COM_TAG" "your-memex-id"),
  ("microsoft.com", envGet env "MICROSOFT_COM_TAG" "your-microsoft-id"),
  ("apple.com", envGet env "APPLE_COM_TAG" "your-apple-id")]

/-- `UTM_PARAMS` of `affiliate_config.py`, in source order. -/
def UTM_PARAMS : List (List Char × List Char) := [
  ("utm_source".data, "rss_feed".data),
  ("utm_medium".data, "affiliate".data),
  ("utm_campaign".data, "smartcanucks_deals".data),
  ("utm_content".data, "rss_item".data)]

/-- `should_affiliate_link`: `domain = url.lower()` — a substring check
of every configured domain against the WHOLE lowercased URL, not
against its host. -/
def shouldAffiliateLink (env : String → Option String)
    (url : List Char) : Bool :=
  (AFFILIATE_TAGS env).any (fun kv => strIn kv.1.data (lowerL url))

/-- `get_affiliate_tag`: the first configured domain that is a
substring of the lowercased argument wins (dict iteration order). -/
def getAffiliateTag (env : String → Option String)
    (domain : List Char) : Option (List Char) :=
  ((AFFILIATE_TAGS env).find?
    (fun kv => strIn kv.1.data (lowerL domain))).map
    (fun kv => kv.2.data)

/-! ## `affiliate_processor.py` -/

/-- The two fields of the processor's config that
`affiliate_processor.py` reads: `config.get('enabled', True)` and
`config.get('add_utm_params', True)`. -/
structure AffiliateSystemConfig where
  enabled : Bool
  add_utm_params : Bool
deriving DecidableEq

/-- `DEFAULT_AFFILIATE_SYSTEM`, restricted to the fields read. -/
def DEFAULT_AFFILIATE_SYSTEM : AffiliateSystemConfig := ⟨true, true⟩

/-- Python dict assignment `d[k] = v` on an insertion-ordered dict:
update in place when the key exists, else append at the end. -/
def setParam (l : List (List Char × List (List Char)))
    (k : List Char) (v : List (List Char)) :
    List (List Char × List (List Char)) :=
  if l.any (fun kv => kv.1 = k) then
    l.map (fun kv => if kv.1 = k then (k, v) else kv)
  else l ++ [(k, v)]

/-- The body of `_add_utm_params`' loop:
`if key not in query_params: query_params[key] = [value]`. -/
def addMissing (acc : List (List Char × List (List Char)))
    (kv : List Char × List Char) :
    List (List Char × List (List Char)) :=
  if acc.any (fun e => e.1 = kv.1) then acc else acc ++ [(kv.1, [kv.2])]

/-- `AffiliateProcessor._add_utm_params` (the `try` branch; the
embedded operations are total, so the fail-open `except` is dead). -/
def addUtmParams (cfg : AffiliateSystemConfig) (url : List Char) :
    List Char :=
  if !cfg.add_utm_params then url
  else
    let p := urlparseL url
    let qp := UTM_PARAMS.foldl addMissing (parseQs p.query)
    urlunparseL { p with query := urlencodeDoseq qp }

/-- The merchant-specific parameter name chosen by
`_add_affiliate_tag`'s `if`/`elif` chain on the domain. -/
def tagParamName (domain : List Char) : List Char :=
  if strIn "amazon".data domain then "tag".data
  else if strIn "walmart".data domain then "affiliate".data
  else if strIn "bestbuy".data domain then "ref".data
  else if strIn "staples".data domain then "aff".data
  else if strIn "adidas".data domain then "aff".data
  else "aff".data

/-- `AffiliateProcessor._add_affiliate_tag` (the `try` branch; the
embedded operations are total, so the fail-open `except` is dead). -/
def addAffiliateTag (cfg : AffiliateSystemConfig)
    (url domain tag : List Char) : List Char :=
  let p := urlparseL url
  let qp := setParam (parseQs p.query) (tagParamName domain) [tag]
  addUtmParams cfg (urlunparseL { p with query := urlencodeDoseq qp })

/-- Steps 2–6 of `process_link`: the affiliate-injection stage applied
to the already-resolved URL (`parsed = urlparse(..)`,
`domain = parsed.netloc.lower()`, the `should_affiliate_link` guard,
the `get_affiliate_tag` lookup with Python falsiness of `None` and of
the empty string, and the `_add_affiliate_tag` call). -/
def injectAffiliate (cfg : AffiliateSystemConfig)
    (env : String → Option String) (url : List Char) : List Char :=
  if !shouldAffiliateLink env url then url
  else
    match getAffiliateTag env (lowerL (urlparseL url).netloc) with
    | none => url
    | some tag =>
      if tag = [] then url
      else addAffiliateTag cfg url (lowerL (urlparseL url).netloc) tag

/-- `AffiliateProcessor.process_link`. -/
def processLink (cfg : AffiliateSystemConfig)
    (env : String → Option String)
    (net : List Char → Option (List Char)) (url : List Char) :
    List Char :=
  if url = [] || !cfg.enabled then url
  else injectAffiliate cfg env (resolveUrl net url)

/-- The URL `process_link` hands to `_add_affiliate_tag`, when that
call is reached (`none` when one of the guards returns early). -/
def handedToInjection (cfg : AffiliateSystemConfig)
    (env : String → Option String)
    (net : List Char → Option (List Char)) (url : List Char) :
    Option (List Char) :=
  if url = [] || !cfg.enabled then none
  else
    let r := resolveUrl net url
    if !shouldAffiliateLink env r then none
    else
      match getAffiliateTag env (lowerL (urlparseL r).netloc) with
      | none => none
      | some tag => if tag = [] then none else some r

/-- A feed entry as written to `feed.json`. -/
structure FeedEntry where
  title : List Char
  link : List Char
  published : List Char
deriving DecidableEq

/-- The entry `process_rss_entry` returns: the link replaced, the
`affiliate_processed` flag added, and `original_link`/`resolved_link`
kept only on the processed branch. -/
structure ProcessedEntry where
  title : List Char
  link : List Char
  published : List Char
  affiliate_processed : Bool
  original_link : Option (List Char)
  resolved_link : Option (List Char)
deriving DecidableEq

/-- The processor's two counters. -/
structure Stats where
  processed_count : Nat
  skipped_count : Nat
deriving DecidableEq

/-- `AffiliateProcessor.process_rss_entry`. -/
def processRssEntry (cfg : AffiliateSystemConfig)
    (env : String → Option String)
    (net : List Char → Option (List Char))
    (st : Stats) (e : FeedEntry) : Stats × ProcessedEntry :=
  let original := e.link
  let resolved := resolveUrl net original
  let processed := processLink cfg env net resolved
  if processed ≠ original then
    ({ st with processed_count := st.processed_count + 1 },
     ⟨e.title, processed, e.published, true, some original, some resolved⟩)
  else
    ({ st with skipped_count := st.skipped_count + 1 },
     ⟨e.title, processed, e.published, false, none, none⟩)

/-- The body of `process_feed_entries`' loop. -/
def processStep (cfg : AffiliateSystemConfig)
    (env : String → Option String)
    (net : List Char → Option (List Char))
    (acc : Stats × List ProcessedEntry) (e : FeedEntry) :
    Stats × List ProcessedEntry :=
  let r := processRssEntry cfg env net acc.1 e
  (r.1, acc.2 ++ [r.2])

/-- `process_feed_entries`: fold the per-entry processor over the
feed, starting from fresh counters. -/
def processFeedEntries (cfg : AffiliateSystemConfig)
    (env : String → Option String)
    (net : List Char → Option (List Char))
    (entries : List FeedEntry) : Stats × List ProcessedEntry :=
  entries.foldl (processStep cfg env net) (⟨0, 0⟩, [])

/-- `AffiliateProcessor.get_stats`: `processed`, `skipped`, `total`
(the float `success_rate` is out of scope of the claims and omitted). -/
def getStats (st : Stats) : Nat × Nat × Nat :=
  (st.processed_count, st.skipped_count,
   st.processed_count + st.skipped_count)

/-! ## `rss_to_json.parse_rss_feed` -/

/-- An entry as `feedparser` returns it, restricted to what
`parse_rss_feed` reads: `entry.get('title')` / `entry.get('link')`
under Python truthiness (a missing field and an empty string behave
alike, so both are the empty list), and the published string that the
date block (lines 59–67 of the source) produces. -/
structure RawEntry where
  title : List Char
  link : List Char
  published_iso : List Char
deriving DecidableEq

/-- `str.isspace` characters in the ASCII range (the modelling
conventions restrict text to code points where Python and this model
agree). -/
def isPySpace (c : Char) : Bool :=
  c = ' ' || c = '\t' || c = '\n' || c = '\r' ||
    c = '\x0b' || c = '\x0c'

/-- `str.strip()`. -/
def stripL (l : List Char) : List Char :=
  ((l.dropWhile isPySpace).reverse.dropWhile isPySpace).reverse

/-- The per-entry validation of `parse_rss_feed`:
`entry.get('title') and entry.get('link')`. -/
def entryValid (e : RawEntry) : Bool :=
  decide (e.title ≠ []) && decide (e.link ≠ [])

/-- The HTTP-status checks of `parse_rss_feed` (lines 40–48): the
error message for a non-200 status, `none` for 200. -/
def statusError (s : Nat) : Option (List Char) :=
  if s = 404 then some "Feed not found (404)".data
  else if s = 403 then some "Access forbidden (403)".data
  else if s = 500 then some "Server error (500)".data
  else if s ≠ 200 then some ("HTTP error ".data ++ (Nat.repr s).data)
  else none

/-- The entry-validation stage of `parse_rss_feed` (lines 50–82). -/
def entriesResult (entries : List RawEntry) :
    Except (List Char) (List FeedEntry) :=
  if entries = [] then .error "No entries found in feed".data
  else
    let valid := (entries.filter entryValid).map
      (fun e => FeedEntry.mk (stripL e.title) (stripL e.link)
        e.published_iso)
    if valid = [] then
      .error "No valid entries found (missing title or link)".data
    else .ok valid

/-- `parse_rss_feed`, over what the `feedparser` oracle returned: the
optional HTTP status of the feed object and its entry list. -/
def parseRssFeed (status : Option Nat) (entries : List RawEntry) :
    Except (List Char) (List FeedEntry) :=
  match status with
  | some s =>
    match statusError s with
    | some err => .error err
    | none => entriesResult entries
  | none => entriesResult entries

/-- Lookup in a parsed query dict (`query_params.get(k)`). -/
def getParam (l : List (List Char × List (List Char)))
    (k : List Char) : Option (List (List Char)) :=
  (l.find? (fun kv => kv.1 = k)).map (fun kv => kv.2)

/-! ## Lemmas about the resolver -/

theorem resolveUrl_direct {net : List Char → Option (List Char)}
    {url : List Char} (h : isDirectProductUrl url = true) :
    resolveUrl net url = cleanUrlL url := by
  unfold resolveUrl resolveUrlT
  rw [if_pos h]

theorem resolveUrl_head {net : List Char → Option (List Char)}
    {url f : List Char} (hd : isDirectProductUrl url = false)
    (hn : net url = some f) :
    resolveUrl net url = cleanUrlL f := by
  unfold resolveUrl resolveUrlT
  rw [if_neg (by simp [hd]), hn]

theorem resolveUrl_fail {net : List Char → Option (List Char)}
    {url : List Char} (hd : isDirectProductUrl url = false)
    (hn : net url = none) :
    resolveUrl net url = url := by
  unfold resolveUrl resolveUrlT
  rw [if_neg (by simp [hd]), hn]

/-! ## Lemmas about parsed-query dicts and the UTM fold -/

theorem keysOf_append (a b : List (List Char × List (List Char))) :
    keysOf (a ++ b) = keysOf a ++ keysOf b := by
  simp [keysOf]

theorem anyKey_iff {l : List (List Char × List (List Char))}
    {k : List Char} :
    l.any (fun e => e.1 = k) = true ↔ k ∈ keysOf l := by
  rw [List.any_eq_true]
  constructor
  · rintro ⟨kv, hkv, he⟩
    have : kv.1 = k := of_decide_eq_true he
    rw [← this]
    exact List.mem_map_of_mem _ hkv
  · intro h
    rcases List.mem_map.mp h with ⟨kv, hkv, rfl⟩
    exact ⟨kv, hkv, by simp⟩

theorem getParam_append_left {l l2 : List (List Char × List (List Char))}
    {k : List Char} (h : k ∈ keysOf l) :
    getParam (l ++ l2) k = getParam l k := by
  induction l with
  | nil => simp [keysOf] at h
  | cons kv t ih =>
    by_cases he : kv.1 = k
    · unfold getParam
      rw [List.cons_append, List.find?_cons_of_pos _ (by simp [he]),
        List.find?_cons_of_pos _ (by simp [he])]
    · have ht : k ∈ keysOf t := by
        rw [keysOf_cons] at h
        rcases List.mem_cons.mp h with h1 | h1
        · exact absurd h1.symm he
        · exact h1
      unfold getParam at ih ⊢
      rw [List.cons_append, List.find?_cons_of_neg _ (by simp [he]),
        List.find?_cons_of_neg _ (by simp [he])]
      exact ih ht

theorem getParam_append_right {l l2 : List (List Char × List (List Char))}
    {k : List Char} (h : k ∉ keysOf l) :
    getParam (l ++ l2) k = getParam l2 k := by
  induction l with
  | nil => rfl
  | cons kv t ih =>
    have hne : kv.1 ≠ k := by
      intro he
      exact h (by rw [keysOf_cons]; exact he ▸ List.mem_cons_self _ _)
    have ht : k ∉ keysOf t := by
      intro hm
      exact h (by rw [keysOf_cons]; exact List.mem_cons_of_mem _ hm)
    unfold getParam at ih ⊢
    rw [List.cons_append, List.find?_cons_of_neg _ (by simp [hne])]
    exact ih ht

theorem getParam_single (k : List Char) (v : List (List Char)) :
    getParam [(k, v)] k = some v := by
  unfold getParam
  rw [List.find?_cons_of_pos _ (by simp)]
  rfl

theorem addMissing_mem {acc : List (List Char × List (List Char))}
    {kv : List Char × List Char}
    (hc : (acc.any fun e => e.1 = kv.1) = true) :
    addMissing acc kv = acc := by
  unfold addMissing
  rw [if_pos hc]

theorem addMissing_new {acc : List (List Char × List (List Char))}
    {kv : List Char × List Char}
    (hc : (acc.any fun e => e.1 = kv.1) = false) :
    addMissing acc kv = acc ++ [(kv.1, [kv.2])] := by
  unfold addMissing
  rw [if_neg (by rw [hc]; simp)]

theorem utmFold_preserves {ps : List (List Char × List Char)}
    {acc : List (List Char × List (List Char))} {k : List Char}
    (h : k ∈ keysOf acc) :
    getParam (ps.foldl addMissing acc) k = getParam acc k := by
  induction ps generalizing acc with
  | nil => rfl
  | cons p t ih =>
    rw [List.foldl_cons]
    rcases hc : (acc.any fun e => e.1 = p.1) with _ | _
    · rw [addMissing_new hc]
      rw [ih (by rw [keysOf_append]; exact List.mem_append_left _ h)]
      exact getParam_append_left h
    · rw [addMissing_mem hc]
      exact ih h

theorem utmFold_adds {ps : List (List Char × List Char)}
    {acc : List (List Char × List (List Char))} {k v : List Char}
    (hnd : (ps.map Prod.fst).Nodup) (hmem : (k, v) ∈ ps)
    (habs : k ∉ keysOf acc) :
    getParam (ps.foldl addMissing acc) k = some [v] := by
  induction ps generalizing acc with
  | nil => cases hmem
  | cons p t ih =>
    rw [List.map_cons] at hnd
    rw [List.foldl_cons]
    rcases List.mem_cons.mp hmem with he | hm
    · have hp : p = (k, v) := he.symm
      subst hp
      have hc : (acc.any fun e => e.1 = (k, v).1) = false := by
        rw [← Bool.not_eq_true]
        intro hx
        exact habs (anyKey_iff.mp hx)
      rw [addMissing_new hc]
      rw [utmFold_preserves (by
        rw [keysOf_append]
        exact List.mem_append_right _ (by simp [keysOf]))]
      rw [getParam_append_right habs]
      exact getParam_single k [v]
    · have hkt : k ∈ t.map Prod.fst :=
        (List.mem_map).mpr ⟨(k, v), hm, rfl⟩
      have hne : p.1 ≠ k := by
        intro he2
        exact (List.nodup_cons.mp hnd).1 (he2 ▸ hkt)
      rcases hc : (acc.any fun e => e.1 = p.1) with _ | _
      · rw [addMissing_new hc]
        apply ih (List.nodup_cons.mp hnd).2 hm
        rw [keysOf_append]
        intro hmm
        rcases List.mem_append.mp hmm with h1 | h1
        · exact habs h1
        · simp [keysOf] at h1
          exact hne h1.symm
      · rw [addMissing_mem hc]
        exact ih (List.nodup_cons.mp hnd).2 hm habs

theorem utmFold_keys_subset {ps : List (List Char × List Char)}
    {acc : List (List Char × List (List Char))} {g : List Char}
    (h : g ∈ keysOf (ps.foldl addMissing acc)) :
    g ∈ keysOf acc ∨ g ∈ ps.map Prod.fst := by
  induction ps generalizing acc with
  | nil => exact Or.inl h
  | cons p t ih =>
    rw [List.foldl_cons] at h
    rcases ih h with hin | hin
    · rcases hc : (acc.any fun e => e.1 = p.1) with _ | _
      · rw [addMissing_new hc, keysOf_append] at hin
        rcases List.mem_append.mp hin with h1 | h1
        · exact Or.inl h1
        · simp [keysOf] at h1
          exact Or.inr (by
            rw [h1, List.map_cons]
            exact List.mem_cons_self _ _)
      · rw [addMissing_mem hc] at hin
        exact Or.inl hin
    · exact Or.inr (by rw [List.map_cons]; exact List.mem_cons_of_mem _ hin)

theorem ParamsWF_addMissing {acc : List (List Char × List (List Char))}
    (h : ParamsWF acc) {kv : List Char × List Char} (hv : kv.2 ≠ []) :
    ParamsWF (addMissing acc kv) := by
  unfold addMissing
  split
  · exact h
  · rename_i hany
    constructor
    · rw [keysOf_append]
      apply h.1.append (by simp [keysOf])
      intro a ha hb
      simp [keysOf] at hb
      subst hb
      exact hany (anyKey_iff.mpr ha)
    · intro g hg
      rcases List.mem_append.mp hg with hm | hm
      · exact h.2 g hm
      · simp at hm
        subst hm
        refine ⟨by simp, ?_⟩
        intro x hx
        simp at hx
        subst hx
        exact hv

theorem ParamsWF_utmFold (ps : List (List Char × List Char))
    (acc : List (List Char × List (List Char))) (h : ParamsWF acc)
    (hv : ∀ kv ∈ ps, kv.2 ≠ []) :
    ParamsWF (ps.foldl addMissing acc) := by
  induction ps generalizing acc with
  | nil => exact h
  | cons p t ih =>
    rw [List.foldl_cons]
    exact ih _ (ParamsWF_addMissing h (hv p (List.mem_cons_self _ _)))
      (fun kv hkv => hv kv (List.mem_cons_of_mem _ hkv))

theorem addUtmParams_disabled {cfg : AffiliateSystemConfig}
    {url : List Char} (h : cfg.add_utm_params = false) :
    addUtmParams cfg url = url := by
  unfold addUtmParams
  rw [if_pos (by rw [h]; rfl)]

/-- Rebuilding a URL with a well-formed encoded dict as its query and
re-parsing recovers the dict. -/
theorem reparse_query (url : List Char)
    (l : List (List Char × List (List Char))) (h : ParamsWF l) :
    parseQs (urlparseL (urlunparseL
      { urlparseL url with query := urlencodeDoseq l })).query = l := by
  rw [urlparse_recover (GoodParsed_set_query (good_urlparse url)
    (urlencode_not_sharp _) (fun c hc => urlencode_not_unsafe hc))]
  exact parseQs_urlencode h

/-- When UTM injection is enabled, the query of `_add_utm_params`'
output re-parses to the folded dict. -/
theorem addUtmParams_reparse (cfg : AffiliateSystemConfig)
    (url : List Char) (h : cfg.add_utm_params = true) :
    parseQs (urlparseL (addUtmParams cfg url)).query =
      UTM_PARAMS.foldl addMissing (parseQs (urlparseL url).query) := by
  unfold addUtmParams
  rw [if_neg (by rw [h]; simp)]
  exact reparse_query url _ (ParamsWF_utmFold UTM_PARAMS _
    (ParamsWF_parseQs _) (by decide))

/-! ## The claims -/

/-- C1 (amended): on every path through `process_link` on which the
resolver does not fail (a direct product URL, or an HTTP HEAD request
that returns), the URL handed to `_add_affiliate_tag` has passed the
cleaner — every key of its query satisfies the keep-condition, so no
deny-listed or tracking-prefixed parameter remains.  (The accompanying
counterexample shows the resolver's failure path hands the original,
uncleaned URL to injection.) -/
theorem claim_C1_injection_gets_cleaned_url
    (cfg : AffiliateSystemConfig) (env : String → Option String)
    (net : List Char → Option (List Char)) (url r : List Char)
    (hres : isDirectProductUrl url = true ∨ net url ≠ none)
    (hh : handedToInjection cfg env net url = some r) :
    ∀ k, k ∈ keysOf (parseQs (urlparseL r).query) → keepKey k = true := by
  have hr : r = resolveUrl net url := by
    simp only [handedToInjection] at hh
    split at hh
    · exact absurd hh (by simp)
    · split at hh
      · exact absurd hh (by simp)
      · rcases hga : getAffiliateTag env
            (lowerL (urlparseL (resolveUrl net url)).netloc) with _ | tag
        · rw [hga] at hh
          exact absurd hh (by simp)
        · rw [hga] at hh
          dsimp only at hh
          split at hh
          · exact absurd hh (by simp)
          · exact (Option.some.inj hh).symm
  subst hr
  intro k hk
  cases hd : isDirectProductUrl url with
  | true =>
    rw [resolveUrl_direct hd] at hk
    exact cleanUrlL_keys hk
  | false =>
    rcases hres with hres | hres
    · rw [hd] at hres
      cases hres
    · rcases hn : net url with _ | f
      · exact absurd hn hres
      · rw [resolveUrl_head hd hn] at hk
        exact cleanUrlL_keys hk

/-- C1 witness: the network resolves
`https://www.amazon.ca/a?tag=x`, so injection is handed the cleaned
`https://www.amazon.ca/a`, whose every query key (there is none) passes
the keep-condition. -/
theorem claim_C1_witness :
    handedToInjection DEFAULT_AFFILIATE_SYSTEM (fun _ => none)
      (fun _ => some "https://www.amazon.ca/a?tag=x".data)
      "https://www.amazon.ca/a?tag=x".data =
      some "https://www.amazon.ca/a".data ∧
    (∀ k, k ∈ keysOf (parseQs
      (urlparseL "https://www.amazon.ca/a".data).query) →
      keepKey k = true) :=
  ⟨by decide,
   claim_C1_injection_gets_cleaned_url DEFAULT_AFFILIATE_SYSTEM
     (fun _ => none) (fun _ => some "https://www.amazon.ca/a?tag=x".data)
     "https://www.amazon.ca/a?tag=x".data "https://www.amazon.ca/a".data
     (Or.inr (by simp)) (by decide)⟩

/-- C1 counterexample: with the network failing, `process_link` hands
`_add_affiliate_tag` the original URL still carrying the deny-listed
key `tag` — the claimed invariant does not hold on the resolver's
failure path. -/
theorem claim_C1_counterexample :
    handedToInjection DEFAULT_AFFILIATE_SYSTEM (fun _ => none)
      (fun _ => none) "https://www.amazon.ca/foo?tag=old-20".data =
      some "https://www.amazon.ca/foo?tag=old-20".data ∧
    decide ("tag".data ∈ keysOf (parseQs (urlparseL
      "https://www.amazon.ca/foo?tag=old-20".data).query)) = true ∧
    keepKey "tag".data = false :=
  ⟨by decide, by decide, by decide⟩

/-- C2 (amended): `should_affiliate_link` matches configured domains
against the whole lowercased URL, not only the host; but the tag
lookup `get_affiliate_tag` matches against the lowercased host, so any
URL whose host contains no configured domain passes through the
injection stage unchanged. -/
theorem claim_C2_unknown_domain_passthrough
    (cfg : AffiliateSystemConfig) (env : String → Option String)
    (url : List Char)
    (h : ∀ kv ∈ AFFILIATE_TAGS env,
      strIn kv.1.data (lowerL (urlparseL url).netloc) = false) :
    injectAffiliate cfg env url = url := by
  have hga : getAffiliateTag env (lowerL (urlparseL url).netloc) = none := by
    unfold getAffiliateTag
    have hf : (AFFILIATE_TAGS env).find?
        (fun kv => strIn kv.1.data (lowerL (lowerL (urlparseL url).netloc)))
        = none := by
      apply List.find?_eq_none.mpr
      intro kv hkv
      rw [lowerL_idem]
      simp [h kv hkv]
    rw [hf]
    rfl
  unfold injectAffiliate
  rw [hga]
  split
  · rfl
  · rfl

/-- C2 witness: `https://example.com/x`, whose host `example.com`
matches no configured domain, passes through unchanged. -/
theorem claim_C2_witness :
    (∀ kv ∈ AFFILIATE_TAGS (fun _ => none),
      strIn kv.1.data (lowerL (urlparseL
        "https://example.com/x".data).netloc) = false) ∧
    injectAffiliate DEFAULT_AFFILIATE_SYSTEM (fun _ => none)
      "https://example.com/x".data = "https://example.com/x".data :=
  ⟨by decide,
   claim_C2_unknown_domain_passthrough DEFAULT_AFFILIATE_SYSTEM
     (fun _ => none) "https://example.com/x".data (by decide)⟩

/-- C2 counterexample: the membership test is NOT computed from the
host — `https://example.com/amazon.ca/x` passes
`should_affiliate_link` because `amazon.ca` occurs in the path, even
though its host `example.com` contains no configured domain. -/
theorem claim_C2_counterexample :
    shouldAffiliateLink (fun _ => none)
      "https://example.com/amazon.ca/x".data = true ∧
    (AFFILIATE_TAGS (fun _ => none)).all
      (fun kv => !(strIn kv.1.data (lowerL (urlparseL
        "https://example.com/amazon.ca/x".data).netloc))) = true :=
  ⟨by decide, by decide⟩

/-- C3 (amended): cleaning twice equals cleaning once — `_clean_url`
is idempotent on every URL. -/
theorem claim_C3_clean_idempotent (url : String) :
    cleanUrl (cleanUrl url) = cleanUrl url :=
  congrArg String.mk (cleanUrlL_idem url.data)

/-- C3 counterexample to the already-clean half of the claim:
`https://example.com/x?a=` carries no deny-listed or tracking-prefixed
parameter (its only key `a` passes the keep-condition), yet `clean`
does not return it unchanged — `parse_qs` drops the blank-valued
parameter and the query disappears. -/
theorem claim_C3_counterexample :
    keepKey "a".data = true ∧
    cleanUrl "https://example.com/x?a=" = "https://example.com/x" :=
  ⟨by decide, by decide⟩

/-- C4: the deny-list entry `linkCode` matches the parameter key
`linkCode` case-insensitively, yet cleaning leaves
`?linkCode=abc` untouched: `_clean_url` compares `key.lower()` against
the set, which can never equal its mixed-case entries (`linkCode`,
`linkId`, `refRID`, `acampID`, `selectedSellerId`), so those five
entries are dead and the parameter survives as a query key. -/
theorem claim_C4_mixed_case_deny_entries_dead :
    removeParams.any (fun s => lowerS s = lowerS "linkCode") = true ∧
    cleanUrl "https://example.com/x?linkCode=abc" =
      "https://example.com/x?linkCode=abc" ∧
    decide ("linkCode".data ∈ keysOf (parseQs (urlparseL
      (cleanUrl "https://example.com/x?linkCode=abc").data).query))
      = true :=
  ⟨by decide, by decide, by decide⟩

/-- C5: cleaning is a left-inverse of tag injection for the configured
parameter names — whatever merchant-specific parameter
`_add_affiliate_tag` sets (`tag`, `affiliate`, `ref` or `aff`), that
key is absent from the cleaned result, for every URL, domain and
tag value. -/
theorem claim_C5_clean_removes_injected_tag
    (cfg : AffiliateSystemConfig) (url domain tag : List Char) :
    decide (tagParamName domain ∈ keysOf (parseQs (urlparseL
      (cleanUrlL (addAffiliateTag cfg url domain tag))).query)) = false := by
  apply decide_eq_false
  intro hmem
  have hkeep := cleanUrlL_keys hmem
  have hcases : tagParamName domain = "tag".data ∨
      tagParamName domain = "affiliate".data ∨
      tagParamName domain = "ref".data ∨
      tagParamName domain = "aff".data := by
    unfold tagParamName
    split
    · exact Or.inl rfl
    · split
      · exact Or.inr (Or.inl rfl)
      · split
        · exact Or.inr (Or.inr (Or.inl rfl))
        · split
          · exact Or.inr (Or.inr (Or.inr rfl))
          · split
            · exact Or.inr (Or.inr (Or.inr rfl))
            · exact Or.inr (Or.inr (Or.inr rfl))
  rcases hcases with hc | hc | hc | hc <;> rw [hc] at hkeep <;>
    exact absurd hkeep (by decide)

/-- C6: UTM injection is first-write-wins — keys already present in
the parsed query keep their values untouched, the configured UTM keys
that are missing are added with their configured values, and no other
key is added. -/
theorem claim_C6_utm_first_write_wins (cfg : AffiliateSystemConfig)
    (url k : List Char) :
    (k ∈ keysOf (parseQs (urlparseL url).query) →
      getParam (parseQs (urlparseL (addUtmParams cfg url)).query) k =
        getParam (parseQs (urlparseL url).query) k) ∧
    (∀ v, (k, v) ∈ UTM_PARAMS → cfg.add_utm_params = true →
      k ∉ keysOf (parseQs (urlparseL url).query) →
      getParam (parseQs (urlparseL (addUtmParams cfg url)).query) k =
        some [v]) ∧
    (∀ g, g ∈ keysOf (parseQs (urlparseL (addUtmParams cfg url)).query) →
      g ∈ keysOf (parseQs (urlparseL url).query) ∨
        g ∈ UTM_PARAMS.map Prod.fst) := by
  refine ⟨?_, ?_, ?_⟩
  · intro hk
    cases hc : cfg.add_utm_params with
    | false => rw [addUtmParams_disabled hc]
    | true =>
      rw [addUtmParams_reparse cfg url hc]
      exact utmFold_preserves hk
  · intro v hv htrue hk
    rw [addUtmParams_reparse cfg url htrue]
    exact utmFold_adds (by decide) hv hk
  · intro g hg
    cases hc : cfg.add_utm_params with
    | false =>
      rw [addUtmParams_disabled hc] at hg
      exact Or.inl hg
    | true =>
      rw [addUtmParams_reparse cfg url hc] at hg
      exact utmFold_keys_subset hg

/-- C7: the resolver is fail-open — when the URL matches no direct
product pattern and the single HTTP HEAD request raises,
`resolve_url` returns the original URL exactly unchanged (and raises
nothing: the embedded function is total). -/
theorem claim_C7_resolver_fail_open
    (net : List Char → Option (List Char)) (url : List Char)
    (hd : isDirectProductUrl url = false) (hn : net url = none) :
    resolveUrlT net url = (url, true) := by
  unfold resolveUrlT
  rw [if_neg (by simp [hd]), hn]

/-- C7 witness: the concrete scenario — a network failure for
`https://bit.ly/xyz` returns it unchanged. -/
theorem claim_C7_witness :
    isDirectProductUrl "https://bit.ly/xyz".data = false ∧
    resolveUrlT (fun _ => none) "https://bit.ly/xyz".data =
      ("https://bit.ly/xyz".data, true) :=
  ⟨by decide,
   claim_C7_resolver_fail_open (fun _ => none) "https://bit.ly/xyz".data
     (by decide) rfl⟩

/-- C8: a URL matching one of the direct product patterns skips the
network (`resolve_url` returns `_clean_url(url)` with no HEAD
request); the HEAD request is issued exactly on URLs matching none of
the patterns. -/
theorem claim_C8_direct_skips_network
    (net : List Char → Option (List Char)) (url : List Char) :
    (isDirectProductUrl url = true →
      resolveUrlT net url = (cleanUrlL url, false)) ∧
    (isDirectProductUrl url = false → (resolveUrlT net url).2 = true) := by
  constructor
  · intro h
    unfold resolveUrlT
    rw [if_pos h]
  · intro h
    unfold resolveUrlT
    rw [if_neg (by simp [h])]
    rcases net url with _ | f <;> rfl

/-- C9: the entry-validation stage of `parse_rss_feed` (on a feed
fetched with a successful status) drops exactly the entries whose
title or link is missing or empty, errors exactly when no entry
survives, and in particular a nonempty feed whose every entry has an
empty link yields the "No valid entries" error. -/
theorem claim_C9_feed_validation (status : Option Nat)
    (entries : List RawEntry) (hok : status = none ∨ status = some 200) :
    (∀ l, parseRssFeed status entries = .ok l →
      l = (entries.filter entryValid).map
        (fun e => FeedEntry.mk (stripL e.title) (stripL e.link)
          e.published_iso)) ∧
    ((∃ err, parseRssFeed status entries = .error err) ↔
      entries.filter entryValid = []) ∧
    ((entries ≠ [] ∧ ∀ e ∈ entries, e.link = []) →
      parseRssFeed status entries =
        .error "No valid entries found (missing title or link)".data) := by
  have hred : parseRssFeed status entries = entriesResult entries := by
    rcases hok with h | h <;> subst h <;> rfl
  rw [hred]
  by_cases h0 : entries = []
  · subst h0
    refine ⟨?_, ?_, ?_⟩
    · intro l hl
      cases hl
    · exact iff_of_true ⟨_, rfl⟩ rfl
    · rintro ⟨hne, _⟩
      exact absurd rfl hne
  · unfold entriesResult
    rw [if_neg h0]
    by_cases hv : (entries.filter entryValid).map
        (fun e => FeedEntry.mk (stripL e.title) (stripL e.link)
          e.published_iso) = []
    · rw [if_pos hv]
      refine ⟨?_, ?_, ?_⟩
      · intro l hl
        cases hl
      · exact iff_of_true ⟨_, rfl⟩ (List.map_eq_nil_iff.mp hv)
      · intro _
        rfl
    · rw [if_neg hv]
      refine ⟨?_, ?_, ?_⟩
      · intro l hl
        exact (Except.ok.inj hl).symm
      · apply iff_of_false
        · rintro ⟨err, herr⟩
          cases herr
        · intro hfe
          exact hv (by rw [hfe]; rfl)
      · rintro ⟨_, hlinks⟩
        have hfe : entries.filter entryValid = [] := by
          apply List.filter_eq_nil_iff.mpr
          intro e he
          unfold entryValid
          rw [hlinks e he]
          simp
        exact absurd (by rw [hfe]; rfl) hv

/-- C9 witness: a feed whose single entry has an empty link errors
with the "No valid entries" message. -/
theorem claim_C9_witness :
    parseRssFeed none [RawEntry.mk "t".data [] []] =
      .error "No valid entries found (missing title or link)".data :=
  (claim_C9_feed_validation none [RawEntry.mk "t".data [] []]
    (Or.inl rfl)).2.2 ⟨by decide, by decide⟩

/-- C10: the `affiliate_processed` flag of a processed entry is true
exactly when the output link differs from the input link, and over any
feed the `processed` and `skipped` counters of `get_stats` sum to its
`total`, the number of entries processed. -/
theorem claim_C10_flag_and_counters (cfg : AffiliateSystemConfig)
    (env : String → Option String)
    (net : List Char → Option (List Char)) :
    (∀ st e, ((processRssEntry cfg env net st e).2.affiliate_processed
        = true ↔ (processRssEntry cfg env net st e).2.link ≠ e.link)) ∧
    (∀ entries : List FeedEntry,
      (getStats (processFeedEntries cfg env net entries).1).1 +
        (getStats (processFeedEntries cfg env net entries).1).2.1 =
        entries.length ∧
      (getStats (processFeedEntries cfg env net entries).1).2.2 =
        entries.length) := by
  have hstep : ∀ st e,
      (processRssEntry cfg env net st e).1.processed_count +
        (processRssEntry cfg env net st e).1.skipped_count =
        st.processed_count + st.skipped_count + 1 := by
    intro st e
    unfold processRssEntry
    dsimp only
    split <;> dsimp only <;> omega
  have hfold : ∀ (entries : List FeedEntry)
      (acc : Stats × List ProcessedEntry),
      (entries.foldl (processStep cfg env net) acc).1.processed_count +
        (entries.foldl (processStep cfg env net) acc).1.skipped_count =
        acc.1.processed_count + acc.1.skipped_count + entries.length := by
    intro entries
    induction entries with
    | nil =>
      intro acc
      simp
    | cons e t ih =>
      intro acc
      rw [List.foldl_cons]
      rw [ih]
      show (processRssEntry cfg env net acc.1 e).1.processed_count +
        (processRssEntry cfg env net acc.1 e).1.skipped_count + t.length = _
      rw [hstep]
      simp
      omega
  constructor
  · intro st e
    unfold processRssEntry
    dsimp only
    split
    · rename_i hne
      exact iff_of_true rfl hne
    · rename_i hne
      rw [not_not] at hne
      exact iff_of_false (by simp) (by
        show ¬(processLink cfg env net (resolveUrl net e.link) ≠ e.link)
        rw [not_not]
        exact hne)
  · intro entries
    constructor
    · show (processFeedEntries cfg env net entries).1.processed_count +
        (processFeedEntries cfg env net entries).1.skipped_count = _
      unfold processFeedEntries
      rw [hfold]
      simp
    · show (processFeedEntries cfg env net entries).1.processed_count +
        (processFeedEntries cfg env net entries).1.skipped_count = _
      unfold processFeedEntries
      rw [hfold]
      simp

end RssPipeline
